import Mathlib

/-!
# minitar: a verification development

A shallow embedding of `minitar.c` (create, append, list and extract for a
subset of the ustar archive format) together with theorems about it.

Conventions of the embedding.

* A byte is a `Nat` (a value in `0 .. 255`); a file, a header block and an
  archive are lists of bytes.  A C string is the list of its bytes before the
  terminating NUL.
* `int` is a 32-bit two's complement integer: every `int` operation is
  computed in `Int` and reduced with `wrap32`.  `unsigned` is reduced modulo
  `2^32`, `size_t` modulo `2^64`.  `long`/`off_t` are 64 bits wide and are
  never exceeded by a file length, so they are plain integers.
* The member files, their metadata and the user/group database are read
  through an `Env`.  The archive is a byte string of its own: runs in which
  the archive is itself one of the member paths are outside the model.
* Read and write errors of the C library on open streams are not modelled
  (`ferror` is never set, `fwrite` never fails); failures of `fopen`, `stat`,
  `getpwuid`, `getgrgid`, `lseek` are.
* `create_archive` and `append_files_to_archive` give the archive as written:
  the file together with the bytes a stream that was left open still holds.
  Where the two differ (a return without `fclose`), the file at the moment of
  the return is given by `create_archive_at_return` and
  `append_files_to_archive_at_return`, through `Env.flushed`.
* Loops that need not terminate take a fuel argument and return `none` when
  it is used up; more fuel never changes a result (`list_loop_fuel_le`,
  `extract_loop_fuel_le`, `copy_loop_fuel_le`).  The loop of `copy_helper` is
  given the fuel `length / 512 + 1`, which is all it can use
  (`copy_helper_fuel_exact`).
* Memory is flat: a read of more bytes than a buffer holds continues into
  the memory behind it, which the model then keeps track of; a write from
  memory the model has no content for is the result `none`.
-/

namespace Minitar

/-! ## Machine arithmetic -/

/-- Reduction of an integer to the range of a 32-bit `int` (two's
complement): the residue modulo `2^32` that lies in `-2^31 .. 2^31 - 1`. -/
def wrap32 (x : Int) : Int :=
  let r := (x % 4294967296).toNat
  if r < 2147483648 then (r : Int) else (r : Int) - 4294967296

/-- Conversion to `unsigned` (32 bits). -/
def to_unsigned (x : Int) : Nat := (x % 4294967296).toNat

/-- Conversion of an `int` to `size_t` (64 bits). -/
def to_size_t (x : Int) : Nat := (x % 18446744073709551616).toNat

/-- Value of a byte read through a plain `char`: on an ABI where `char` is
signed the bytes `0x80 .. 0xff` are negative. -/
def char_val (signed_char : Bool) (b : Nat) : Int :=
  if signed_char && decide (128 ≤ b) then (b : Int) - 256 else (b : Int)

/-! ## C library helpers -/

/-- List of `n` zero bytes (`memset(p, 0, n)`). -/
def zeros (n : Nat) : List Nat := List.replicate n 0

/-- Result of writing `data` at the start of the memory region `old`; the
region keeps its length. -/
def store (old data : List Nat) : List Nat :=
  (data ++ old.drop data.length).take old.length

/-- The C string that starts at the beginning of a memory region. -/
def cstr (mem : List Nat) : List Nat := mem.takeWhile (fun b => b != 0)

/-- The `n` bytes `strncpy(dst, src, n)` writes: the string, cut at `n`
bytes, zero filled up to `n`. -/
def strncpy (src : List Nat) (n : Nat) : List Nat :=
  src.take n ++ zeros (n - src.length)

/-- Octal digits of `n`, most significant first, as ASCII bytes; `fuel`
bounds the number of digits. -/
def octal_digits : Nat → Nat → List Nat
  | 0, _ => []
  | fuel + 1, n =>
    if n < 8 then [48 + n] else octal_digits fuel (n / 8) ++ [48 + n % 8]

/-- Text produced by the conversion `%0<width>o` for an `unsigned` argument
(at most 11 octal digits). -/
def fmt_octal (width : Nat) (x : Nat) : List Nat :=
  let ds := octal_digits 11 (x % 4294967296)
  List.replicate (width - ds.length) 48 ++ ds

/-- Bytes `snprintf(buf, n, ...)` writes for the formatted text `s`: at most
`n - 1` bytes of it and a terminating NUL. -/
def snprintf (n : Nat) (s : List Nat) : List Nat :=
  s.take (n - 1) ++ [0]

/-! ## The header block -/

/-- Modelled from the spec: the layout of `tar_header` (declared in
`minitar.h`, which is not among the sources): the ustar header, 512 bytes.
The offsets of `name` (0) and `size` (124) and the total of 512 are the ones
`extract_files_from_archive` relies on. The last two fields are the ustar
name-prefix area and the padding to 512 bytes. -/
structure tar_header where
  name : List Nat
  mode : List Nat
  uid : List Nat
  gid : List Nat
  size : List Nat
  mtime : List Nat
  chksum : List Nat
  typeflag : List Nat
  linkname : List Nat
  magic : List Nat
  version : List Nat
  uname : List Nat
  gname : List Nat
  devmajor : List Nat
  devminor : List Nat
  name_pfx : List Nat
  padding : List Nat
deriving DecidableEq, Repr

/-- The header as the 512 bytes of memory it occupies. -/
def header_bytes (h : tar_header) : List Nat :=
  h.name ++ h.mode ++ h.uid ++ h.gid ++ h.size ++ h.mtime ++ h.chksum ++ h.typeflag ++
    h.linkname ++ h.magic ++ h.version ++ h.uname ++ h.gname ++ h.devmajor ++ h.devminor ++
    h.name_pfx ++ h.padding

/-- A 512-byte block read into a `tar_header`. -/
def header_of_bytes (b : List Nat) : tar_header where
  name := (b.drop 0).take 100
  mode := (b.drop 100).take 8
  uid := (b.drop 108).take 8
  gid := (b.drop 116).take 8
  size := (b.drop 124).take 12
  mtime := (b.drop 136).take 12
  chksum := (b.drop 148).take 8
  typeflag := (b.drop 156).take 1
  linkname := (b.drop 157).take 100
  magic := (b.drop 257).take 6
  version := (b.drop 263).take 2
  uname := (b.drop 265).take 32
  gname := (b.drop 297).take 32
  devmajor := (b.drop 329).take 8
  devminor := (b.drop 337).take 8
  name_pfx := (b.drop 345).take 155
  padding := (b.drop 500).take 12

/-- Modelled from the spec: `REGTYPE` of `minitar.h`, the ustar type flag of
a regular file, the character `0`. -/
def REGTYPE : Nat := 48

/-- Modelled from the spec: `MAGIC` of `minitar.h`, the ustar tag `ustar`. -/
def MAGIC : List Nat := [117, 115, 116, 97, 114]

/-- Sum of the bytes of a block as `compute_checksum` adds them up: each is
read through a `char`, the sum is `unsigned`. -/
def byte_sum (signed_char : Bool) (bytes : List Nat) : Nat :=
  bytes.foldl (fun sum b => to_unsigned ((sum : Int) + char_val signed_char b)) 0

/-- The function `compute_checksum`. -/
def compute_checksum (signed_char : Bool) (header : tar_header) : tar_header :=
  let header := { header with chksum := store header.chksum (List.replicate 8 32) }
  let sum := byte_sum signed_char (header_bytes header)
  { header with chksum := store header.chksum (snprintf 8 (fmt_octal 7 sum)) }

/-! ## The environment -/

/-- The fields of `struct stat` that `fill_tar_header` reads; `st_dev_major`
and `st_dev_minor` are `major(st_dev)` and `minor(st_dev)`. -/
structure stat_t where
  st_mode : Nat
  st_uid : Nat
  st_gid : Nat
  st_size : Nat
  st_mtime : Nat
  st_dev_major : Nat
  st_dev_minor : Nat
deriving DecidableEq, Repr

/-- What the program reads from its surroundings. -/
structure Env where
  /-- Whether plain `char` is signed (it is on x86-64 Linux). -/
  signed_char : Bool
  /-- Result of `stat(path, ..)`: `none` when it fails. -/
  stat : List Nat → Option stat_t
  /-- Name field of `getpwuid(uid)`: `none` for a NULL result. -/
  getpwuid : Nat → Option (List Nat)
  /-- Name field of `getgrgid(gid)`: `none` for a NULL result. -/
  getgrgid : Nat → Option (List Nat)
  /-- Result of `fopen(path, "r")` on a member file: the content of the file,
  `none` when the file cannot be opened. -/
  fopen_r : List Nat → Option (List Nat)
  /-- Whether the path can be opened for writing (`fopen` with mode `w` or
  `a`, `open` with `O_WRONLY`). -/
  fopen_w : List Nat → Bool
  /-- Buffering of stdio: of `n` bytes written to an output stream that was
  neither flushed nor closed, the number that stdio has passed on to the file
  (implementation-defined; a value above `n` stands for all of them). -/
  flushed : Nat → Nat

/-- The function `fill_tar_header`: `none` stands for the return value -1
(the header is then not used by any caller). Every field the function writes
is written once, into the zero bytes left by the `memset` at its start; the
fields it does not write stay zero. -/
def fill_tar_header (env : Env) (file_name : List Nat) : Option tar_header :=
  match env.stat file_name with
  | none => none
  | some stat_buf =>
    match env.getpwuid stat_buf.st_uid with
    | none => none
    | some pw_name =>
      match env.getgrgid stat_buf.st_gid with
      | none => none
      | some gr_name =>
        some (compute_checksum env.signed_char
          { name := store (zeros 100) (strncpy file_name 100)
            mode := store (zeros 8) (snprintf 8 (fmt_octal 7 (stat_buf.st_mode &&& 4095)))
            uid := store (zeros 8) (snprintf 8 (fmt_octal 7 stat_buf.st_uid))
            uname := store (zeros 32) (strncpy pw_name 32)
            gid := store (zeros 8) (snprintf 8 (fmt_octal 7 stat_buf.st_gid))
            gname := store (zeros 32) (strncpy gr_name 32)
            size := store (zeros 12) (snprintf 12 (fmt_octal 11 stat_buf.st_size))
            mtime := store (zeros 12) (snprintf 12 (fmt_octal 11 stat_buf.st_mtime))
            typeflag := [REGTYPE]
            magic := store (zeros 6) (strncpy MAGIC 6)
            version := store (zeros 2) [48, 48]
            devmajor := store (zeros 8) (snprintf 8 (fmt_octal 7 stat_buf.st_dev_major))
            devminor := store (zeros 8) (snprintf 8 (fmt_octal 7 stat_buf.st_dev_minor))
            chksum := zeros 8
            linkname := zeros 100
            name_pfx := zeros 155
            padding := zeros 12 })

/-! ## Streams -/

/-- The call `fread(buffer, n, 1, stream)` on a stream over `file` positioned
at `pos`: the bytes read overwrite the start of the memory at `buffer` (which
grows in the model when more is read than it held), the position advances by
the number of bytes read; a short read leaves the rest of the memory as it
was. Returns the memory and the new position. -/
def fread (buffer : List Nat) (n : Nat) (file : List Nat) (pos : Nat) : List Nat × Nat :=
  let got := (file.drop pos).take n
  (got ++ buffer.drop got.length, pos + got.length)

/-- The call `fseek(stream, off, SEEK_SET)`, or `SEEK_CUR` with `off`
already added to the position: a negative target is refused and leaves the
position where it was. -/
def fseek (pos : Nat) (target : Int) : Nat :=
  if target < 0 then pos else target.toNat

/-! ## Writing an archive -/

/-- The loop of `copy_helper`: `i` is the loop counter, `buffer` the 512-byte
array, `pos` the read position in `source`. Returns the bytes written to the
target. -/
def copy_loop (source : List Nat) (size : Int) : Nat → Int → List Nat → Nat → Option (List Nat)
  | 0, i, _, _ => if i < size then none else some []
  | fuel + 1, i, buffer, pos =>
    if i < size then
      let copy_bytes := wrap32 (size - i)
      let copy_bytes := if copy_bytes ≥ 512 then 512 else copy_bytes
      let r := fread buffer (to_size_t copy_bytes) source pos
      match copy_loop source size fuel (wrap32 (i + 512)) r.1 r.2 with
      | none => none
      | some out => some (r.1.take 512 ++ out)
    else some []

/-- The function `copy_helper`: the bytes it writes to the target for a
source file with the given content. The loop is run for at most
`length / 512 + 1` rounds; `none` means that it does not terminate
(`copy_helper_fuel_exact`, `copy_loop_diverges`). -/
def copy_helper (source : List Nat) : Option (List Nat) :=
  copy_loop source (wrap32 source.length) (source.length / 512 + 1) 0 (zeros 512) 0

/-- The `while` loop over the file list, which `create_archive` and
`append_files_to_archive` share word for word. `archive` is the archive as
written so far: the file as it was when the stream was opened, followed by
the bytes written to the stream since (stdio may still hold some of them in
its buffer). Returns the return value the loop forces (`some 1`: a source
could not be opened) or `none` when it ran to its end, and the archive as
written. -/
def write_loop (env : Env) : List (List Nat) → List Nat → Option (Option Int × List Nat)
  | [], archive => some (none, archive)
  | name :: rest, archive =>
    match env.fopen_r name with
    | none => some (some 1, archive)
    | some source =>
      let archive :=
        match fill_tar_header env name with
        | some buffer => archive ++ (header_bytes buffer).take 512
        | none => archive
      match copy_helper source with
      | none => none
      | some data => write_loop env rest (archive ++ data)

/-- The function `create_archive`. `old` is the file at `archive_name`
before the call (`none`: there is none). Returns the return value and the
archive as written; the outer `none` means that the call does not return.
A call that returns 0 has closed the stream (line 168), and the archive as
written is the file at `archive_name`; so it is for a call that could not
open the archive, which leaves the file alone. A call that gives up on a
source file returns without closing or flushing the stream (lines 150-153):
the archive as written is then what the stream was given, of which the file
holds, at the moment of the return, the part stdio has passed on
(`create_archive_at_return`), and all only once the stream is flushed, as
`exit` does. -/
def create_archive (env : Env) (archive_name : List Nat) (old : Option (List Nat))
    (files : List (List Nat)) : Option (Int × Option (List Nat)) :=
  if !env.fopen_w archive_name then some (1, old)
  else
    match write_loop env files [] with
    | none => none
    | some (some r, archive) => some (r, some archive)
    | some (none, archive) => some (0, some (archive ++ zeros 1024))

/-- The function `remove_trailing_bytes` on a file with content `file`:
return value and content afterwards. -/
def remove_trailing_bytes (env : Env) (file_name : List Nat) (file : List Nat) (nbytes : Nat) :
    Int × List Nat :=
  if !env.fopen_w file_name then (-1, file)
  else
    let current_pos : Int := (file.length : Int) - (nbytes : Int)
    if current_pos < 0 then (-1, file)
    else (0, file.take current_pos.toNat)

/-- The function `append_files_to_archive`; arguments and result as for
`create_archive`: the return value and the archive as written, which is the
file at `archive_name` except for a call that gives up on a source file
(lines 195-198, a return without `fclose`), for which
`append_files_to_archive_at_return` gives the file at the moment of the
return. -/
def append_files_to_archive (env : Env) (archive_name : List Nat) (old : Option (List Nat))
    (files : List (List Nat)) : Option (Int × Option (List Nat)) :=
  match old with
  | none => some (1, none)
  | some file =>
    let r := remove_trailing_bytes env archive_name file 1024
    let remove_footer := r.1
    if remove_footer = 1 then some (1, some r.2)
    else if !env.fopen_w archive_name then some (1, some r.2)
    else
      match write_loop env files r.2 with
      | none => none
      | some (some ret, archive) => some (ret, some archive)
      | some (none, archive) => some (0, some (archive ++ zeros 1024))

/-- The function `create_archive` with, in place of the archive as written,
the file at `archive_name` at the moment of the return. The two differ for a
call that gives up on a source file: it returns with the stream open (lines
150-153), and the file, which `fopen` emptied, holds of the bytes written
those that stdio has passed on. -/
def create_archive_at_return (env : Env) (archive_name : List Nat) (old : Option (List Nat))
    (files : List (List Nat)) : Option (Int × Option (List Nat)) :=
  if !env.fopen_w archive_name then some (1, old)
  else
    match write_loop env files [] with
    | none => none
    | some (some r, archive) => some (r, some (archive.take (env.flushed archive.length)))
    | some (none, archive) => some (0, some (archive ++ zeros 1024))

/-- The function `append_files_to_archive` with, in place of the archive as
written, the file at `archive_name` at the moment of the return. The two
differ for a call that gives up on a source file (lines 195-198): the file
holds what was left of it when the stream was opened, followed by those of
the bytes written since that stdio has passed on. -/
def append_files_to_archive_at_return (env : Env) (archive_name : List Nat)
    (old : Option (List Nat)) (files : List (List Nat)) : Option (Int × Option (List Nat)) :=
  match old with
  | none => some (1, none)
  | some file =>
    let r := remove_trailing_bytes env archive_name file 1024
    let remove_footer := r.1
    if remove_footer = 1 then some (1, some r.2)
    else if !env.fopen_w archive_name then some (1, some r.2)
    else
      match write_loop env files r.2 with
      | none => none
      | some (some ret, archive) =>
        some (ret, some (r.2 ++
          (archive.drop r.2.length).take (env.flushed (archive.length - r.2.length))))
      | some (none, archive) => some (0, some (archive ++ zeros 1024))

/-! ## Reading an archive -/

/-- One round of the octal decoding loop on the byte `b`; the state is
`(h_size, oct_pow)`. -/
def decode_step (b : Nat) (st : Int × Int) : Int × Int :=
  if 48 ≤ b ∧ b ≤ 57 then
    (wrap32 (st.1 + wrap32 (((b : Int) - 48) * st.2)), wrap32 (st.2 * 8))
  else st

/-- The octal decoding loop of `get_archive_file_list` and
`extract_files_from_archive` (`for (int j = 11; j >= 0; j--)`) on the 12 bytes
`field`: the bytes are visited from the last to the first. -/
def decode_size (field : List Nat) : Int :=
  ((field.take 12).foldr decode_step (0, 1)).1

/-- Modelled from the spec: `file_list_add` (of `file_list.c`, which is not
among the sources) appends the string to the ordered list of names. -/
def file_list_add (files : List (List Nat)) (name : List Nat) : List (List Nat) :=
  files ++ [name]

/-- The scan loop of `get_archive_file_list`: `pos` is the position of the
stream, `i` the variable `i`. The name handed to `file_list_add` is the C
string at the start of the header. -/
def list_loop (archive : List Nat) (size : Int) :
    Nat → Nat → Int → List (List Nat) → Option (Int × List (List Nat))
  | 0, pos, _, files => if (pos : Int) < size then none else some (0, files)
  | fuel + 1, pos, i, files =>
    if (pos : Int) < size then
      let r := fread [] 512 archive pos
      let header := header_of_bytes r.1
      let files := file_list_add files (cstr r.1)
      let h_size := decode_size header.size
      let i := wrap32 (i + wrap32 (wrap32 (Int.tdiv h_size 512 + 2) * 512))
      list_loop archive size fuel (fseek r.2 i) i files
    else some (0, files)

/-- The function `get_archive_file_list` on an archive (`none`: it cannot be
opened) and the list `files`: return value and list afterwards; `none` when
`fuel` rounds of the loop do not finish the scan. -/
def get_archive_file_list (fuel : Nat) (archive : Option (List Nat)) (files : List (List Nat)) :
    Option (Int × List (List Nat)) :=
  match archive with
  | none => some (1, files)
  | some archive =>
    let size := wrap32 ((archive.length : Int) - 1024)
    list_loop archive size fuel 0 0 files

/-! ## Extraction -/

/-- The call `fwrite(buffer, n, 1, stream)`: the `n` bytes written, `none`
when they reach past the memory the model keeps track of. -/
def fwrite (buffer : List Nat) (n : Nat) : Option (List Nat) :=
  if n ≤ buffer.length then some (buffer.take n) else none

/-- The files `extract_files_from_archive` writes, by path. -/
abbrev Disk := List Nat → Option (List Nat)

/-- The file at `path` replaced by one with content `data`. -/
def Disk.write (disk : Disk) (path data : List Nat) : Disk :=
  fun p => if p = path then some data else disk p

/-- The loop that copies the full blocks of an entry
(`for (int i = 0; i < num; i++)`), run for `n` rounds: memory at `buffer`,
position in the archive and bytes written to the extracted file. -/
def extract_blocks (archive : List Nat) :
    Nat → List Nat → Nat → List Nat → Option (List Nat × Nat × List Nat)
  | 0, buffer, pos, out => some (buffer, pos, out)
  | n + 1, buffer, pos, out =>
    let r := fread buffer 512 archive pos
    match fwrite r.1 512 with
    | none => none
    | some w => extract_blocks archive n r.1 r.2 (out ++ w)

/-- The `while` loop of `extract_files_from_archive`: `buffer` is the memory
at `buffer`, `pos` the position in the archive. `none` when the fuel is used
up or when the program reads memory the model does not keep track of. -/
def extract_loop (env : Env) (archive : List Nat) :
    Nat → List Nat → Nat → Disk → Option (Int × Disk)
  | 0, buffer, _, disk =>
    match buffer with
    | [] => none
    | b :: _ => if b ≠ 0 then none else some (0, disk)
  | fuel + 1, buffer, pos, disk =>
    match buffer with
    | [] => none
    | b :: _ =>
      if b ≠ 0 then
        let path := cstr buffer
        if path.length = buffer.length then none
        else if !env.fopen_w path then some (1, disk)
        else
          let pos := fseek pos ((pos : Int) + 24)
          let buffer := zeros 512 ++ buffer.drop 512
          let r := fread buffer 12 archive pos
          let h_size := decode_size r.1
          let pos := fseek r.2 ((r.2 : Int) + 376)
          let padding_zero := wrap32 (Int.tmod h_size 512)
          let num := wrap32 (Int.tdiv h_size 512)
          match extract_blocks archive num.toNat r.1 pos [] with
          | none => none
          | some (buffer, pos, out) =>
            if padding_zero ≠ 0 then
              let r := fread buffer (to_size_t h_size) archive pos
              match fwrite r.1 (to_size_t h_size) with
              | none => none
              | some w =>
                let pos := fseek r.2 ((r.2 : Int) + wrap32 (512 - padding_zero))
                let buffer := zeros 512 ++ r.1.drop 512
                let r := fread buffer 100 archive pos
                extract_loop env archive fuel r.1 r.2 (disk.write path (out ++ w))
            else
              let r := fread buffer 100 archive pos
              extract_loop env archive fuel r.1 r.2 (disk.write path out)
      else some (0, disk)

/-- The function `extract_files_from_archive` on an archive (`none`: it
cannot be opened). `heap` is what the memory returned by `malloc(512)` holds:
any 512 bytes (`heap`, cut or zero filled to that length). `disk` holds the
files at the paths the function may write. Returns the return value and the
files afterwards. -/
def extract_files_from_archive (env : Env) (fuel : Nat) (heap : List Nat)
    (archive : Option (List Nat)) (disk : Disk) : Option (Int × Disk) :=
  match archive with
  | none => some (1, disk)
  | some archive =>
    let buffer := store (zeros 512) heap
    let r := fread buffer 100 archive 0
    extract_loop env archive fuel r.1 r.2 disk

/-! ## Entries of an archive -/

/-- What one round of the writer loop adds to the archive for the file
`name`: the header block, when `fill_tar_header` succeeded, and the blocks
`copy_helper` writes. `none` when the file cannot be opened or the copy does
not terminate. -/
def entry_bytes (env : Env) (name : List Nat) : Option (List Nat) :=
  match env.fopen_r name with
  | none => none
  | some source =>
    match copy_helper source with
    | none => none
    | some data =>
      match fill_tar_header env name with
      | some header => some (header_bytes header ++ data)
      | none => some data

/-- The entries of the files of a list, in list order; `none` when one of
them has none. -/
def entries (env : Env) : List (List Nat) → Option (List (List Nat))
  | [] => some []
  | name :: rest =>
    match entry_bytes env name, entries env rest with
    | some e, some es => some (e :: es)
    | _, _ => none

/-! ## The checksum as the specification words it -/

/-- Sum of the 512 bytes of a header as values `0 .. 255`, the eight bytes of
the checksum field counted as spaces. -/
def unsigned_block_sum (header : tar_header) : Nat :=
  (header_bytes { header with chksum := List.replicate 8 32 }).sum

/-- The checksum field the specification asks for: the sum as seven zero
padded octal digits, and the NUL that `snprintf` puts after them. -/
def spec_chksum (header : tar_header) : List Nat :=
  fmt_octal 7 (unsigned_block_sum header) ++ [0]

/-! ## The octal value of a digit string -/

/-- Value of a string of ASCII digits read as an octal numeral, most
significant digit first: each digit counts `(byte - '0') * 8^k`, `k` the
number of digits to its right. -/
def octal_value : List Nat → Int
  | [] => 0
  | d :: ds => ((d : Int) - 48) * 8 ^ ds.length + octal_value ds

/-! ## The header before the checksum -/

/-- The header `fill_tar_header` has built when it calls `compute_checksum`,
from the path, the result of `stat` and the two names looked up. -/
def filled_header (file_name : List Nat) (stat_buf : stat_t) (pw_name gr_name : List Nat) :
    tar_header :=
  { name := store (zeros 100) (strncpy file_name 100)
    mode := store (zeros 8) (snprintf 8 (fmt_octal 7 (stat_buf.st_mode &&& 4095)))
    uid := store (zeros 8) (snprintf 8 (fmt_octal 7 stat_buf.st_uid))
    uname := store (zeros 32) (strncpy pw_name 32)
    gid := store (zeros 8) (snprintf 8 (fmt_octal 7 stat_buf.st_gid))
    gname := store (zeros 32) (strncpy gr_name 32)
    size := store (zeros 12) (snprintf 12 (fmt_octal 11 stat_buf.st_size))
    mtime := store (zeros 12) (snprintf 12 (fmt_octal 11 stat_buf.st_mtime))
    typeflag := [REGTYPE]
    magic := store (zeros 6) (strncpy MAGIC 6)
    version := store (zeros 2) [48, 48]
    devmajor := store (zeros 8) (snprintf 8 (fmt_octal 7 stat_buf.st_dev_major))
    devminor := store (zeros 8) (snprintf 8 (fmt_octal 7 stat_buf.st_dev_minor))
    chksum := zeros 8
    linkname := zeros 100
    name_pfx := zeros 155
    padding := zeros 12 }

/-! ## A small environment for concrete runs -/

/-- Metadata of a regular file with mode 0644, group 1000, on device 8:1. -/
def demo_stat (size uid : Nat) : stat_t :=
  { st_mode := 33188, st_uid := uid, st_gid := 1000, st_size := size,
    st_mtime := 1700000000, st_dev_major := 8, st_dev_minor := 1 }

/-- The content of the file `c` of `demo_env`: 513 letters `A`. -/
def demo_c : List Nat := List.replicate 513 65

/-- A path of 101 letters `p`. -/
def demo_long : List Nat := List.replicate 101 112

/-- An environment with a signed `char`, the user and the group 1000 (both
named `u`) and these files, all other paths missing:
`a` (empty), `b` (the two bytes `hi`), `c` (513 letters `A`),
`d` (one byte, owned by the unknown user 7),
a file whose name is the two bytes `0xc3 0xa9` (empty),
`g` (reported with 2^32 bytes, not readable),
`h` (reported with 2^31 bytes, not readable),
and the path `demo_long` (empty). Every path can be opened for writing, and
stdio passes the bytes of an open stream on in full buffers of 4096 bytes. -/
def demo_env : Env where
  signed_char := true
  stat := fun p =>
    if p = [97] then some (demo_stat 0 1000)
    else if p = [98] then some (demo_stat 2 1000)
    else if p = [99] then some (demo_stat 513 1000)
    else if p = [100] then some (demo_stat 1 7)
    else if p = [195, 169] then some (demo_stat 0 1000)
    else if p = [103] then some (demo_stat 4294967296 1000)
    else if p = [104] then some (demo_stat 2147483648 1000)
    else if p = demo_long then some (demo_stat 0 1000)
    else none
  getpwuid := fun u => if u = 1000 then some [117] else none
  getgrgid := fun g => if g = 1000 then some [117] else none
  fopen_r := fun p =>
    if p = [97] then some []
    else if p = [98] then some [104, 105]
    else if p = [99] then some demo_c
    else if p = [100] then some [9]
    else if p = [195, 169] then some []
    else if p = demo_long then some []
    else none
  fopen_w := fun _ => true
  flushed := fun n => n / 4096 * 4096

/-- The archive path used in the concrete runs (`x`). -/
def demo_name : List Nat := [120]

/-- The archive a call can be run on: the content of the file it returns
with, or the empty file when it does not return one. -/
def archive_of (r : Option (Int × Option (List Nat))) : List Nat :=
  match r with
  | some (_, some archive) => archive
  | _ => []

/-- The archive `create_archive` writes for the file `a` of `demo_env`. -/
def demo_created : List Nat :=
  archive_of (create_archive demo_env demo_name none [[97]])

/-- The archive left by appending the file `b` of `demo_env` to
`demo_created`. -/
def demo_appended : List Nat :=
  archive_of (append_files_to_archive demo_env demo_name (some demo_created) [[98]])

/-- The header of the path `demo_long` in `demo_env`. -/
def demo_long_header : tar_header :=
  compute_checksum true (filled_header demo_long (demo_stat 0 1000) [117] [117])

/-- The header of the file `c` in `demo_env`. -/
def demo_c_header : tar_header :=
  compute_checksum true (filled_header [99] (demo_stat 513 1000) [117] [117])

/-- The archive `create_archive` writes for the files `a` and `b` of
`demo_env`. -/
def demo_ab : List Nat :=
  archive_of (create_archive demo_env demo_name none [[97], [98]])

/-- The archive `create_archive` writes for the file `c` of `demo_env`. -/
def demo_c_archive : List Nat :=
  archive_of (create_archive demo_env demo_name none [[99]])

/-- A disk without files. -/
def empty_disk : Disk := fun _ => none

/-- An archive file of 512 zero bytes: shorter than a footer. -/
def demo_short : List Nat := zeros 512

/-- One round of the scan loop of `get_archive_file_list` from the stream
position `pos` with the variable `i`: the position and `i` after the `fseek`,
and the name handed to `file_list_add`. -/
def list_round (archive : List Nat) (pos : Nat) (i : Int) : Nat × Int × List Nat :=
  let r := fread [] 512 archive pos
  let header := header_of_bytes r.1
  let h_size := decode_size header.size
  let i := wrap32 (i + wrap32 (wrap32 (Int.tdiv h_size 512 + 2) * 512))
  (fseek r.2 i, i, cstr r.1)

/-- Whether a byte is one the decoding loop takes for a digit: `'0'..'9'`. -/
def is_digit (b : Nat) : Bool := decide (48 ≤ b ∧ b ≤ 57)

/-- The digits of a field, in order: the field with every other byte
deleted. -/
def digits_of (field : List Nat) : List Nat := (field.take 12).filter is_digit

/-- The header of the file `a` in `demo_env`. -/
def demo_created_header : tar_header :=
  compute_checksum true (filled_header [97] (demo_stat 0 1000) [117] [117])

/-- The header of the file `b` in `demo_env`. -/
def demo_b_header : tar_header :=
  compute_checksum true (filled_header [98] (demo_stat 2 1000) [117] [117])

/-- The size of the file at a path: the length of what `fopen(path, "r")`
gives to read (0 for a path that cannot be opened). -/
def file_size (env : Env) (name : List Nat) : Nat :=
  match env.fopen_r name with
  | some source => source.length
  | none => 0

/-- The length the specification gives to the entry of a file of `s` bytes:
a header block and `ceil(s / 512)` data blocks. -/
def entry_length (s : Nat) : Nat := 512 * (1 + (s + 511) / 512)

/-- A file of 2^31 zero bytes. -/
def big_file : List Nat := List.replicate 2147483648 0

/-- The environment `demo_env` with one file only, `i`, of 2^31 bytes. -/
def big_env : Env :=
  { demo_env with
    stat := fun p => if p = [105] then some (demo_stat 2147483648 1000) else none
    fopen_r := fun p => if p = [105] then some big_file else none }

/-- The header of the file `i` in `big_env`. -/
def big_header : tar_header :=
  compute_checksum true (filled_header [105] (demo_stat 2147483648 1000) [117] [117])

/-- An archive of one header block and a footer, 1536 bytes: the header has
the name `x` and the size field `37777776000` (with its NUL); its other bytes
are zero. -/
def loop_archive : List Nat :=
  [120] ++ zeros 123 ++ [51, 55, 55, 55, 55, 55, 55, 54, 48, 48, 48, 0] ++ zeros 376 ++ zeros 1024

/-- What the decoding loop makes of the size field of the block at `pos`. -/
def size_at (archive : List Nat) (pos : Nat) : Int :=
  decode_size (header_of_bytes (fread [] 512 archive pos).1).size

/-- The files the listing round trip is proved for: a path of 1 to 99 bytes
without a NUL, a file that can be opened and whose size is not a multiple of
512, reported by `stat` with that size, and an encodable header. -/
def listable (env : Env) (f : List Nat) : Prop :=
  1 ≤ f.length ∧ f.length ≤ 99 ∧ (∀ b ∈ f, b ≠ 0) ∧
    ∃ src st h, env.fopen_r f = some src ∧ env.stat f = some st ∧
      fill_tar_header env f = some h ∧ st.st_size = src.length ∧ src.length % 512 ≠ 0

/-- A file of 2^31 - 513 zero bytes. -/
def big2_file : List Nat := List.replicate 2147483135 0

/-- The environment `demo_env` with one file only, `j`, of 2^31 - 513
bytes. -/
def big2_env : Env :=
  { demo_env with
    stat := fun p => if p = [106] then some (demo_stat 2147483135 1000) else none
    fopen_r := fun p => if p = [106] then some big2_file else none }

/-- The header of the file `j` in `big2_env`. -/
def big2_header : tar_header :=
  compute_checksum true (filled_header [106] (demo_stat 2147483135 1000) [117] [117])

/-- A file that extraction restores: a path of 1 to 99 bytes without a NUL
that can be opened for reading and for writing, reported by `stat` with the
size of its content, with an encodable header, and a size below 512 or a
multiple of 512 below 2^31. -/
def extractable (env : Env) (f : List Nat) : Prop :=
  1 ≤ f.length ∧ f.length ≤ 99 ∧ (∀ b ∈ f, b ≠ 0) ∧ env.fopen_w f = true ∧
    ∃ src st h, env.fopen_r f = some src ∧ env.stat f = some st ∧
      fill_tar_header env f = some h ∧ st.st_size = src.length ∧
      (src.length < 512 ∨ (src.length % 512 = 0 ∧ src.length < 2147483648))

/-- The disk after each file of a list was written, in list order, with the
bytes of the file of that path in the environment. -/
def extracted (env : Env) : Disk → List (List Nat) → Disk
  | disk, [] => disk
  | disk, f :: rest => extracted env (disk.write f ((env.fopen_r f).getD [])) rest

/-- The state of the scan loop of `get_archive_file_list` after `n` rounds,
for the content length `size`: the position of the stream and the variable
`i`. The scan starts with both at 0, a round is run while the position is
below `size`, and the state stays as it is once the loop has ended. -/
def scan_state (archive : List Nat) (size : Int) : Nat → Nat × Int
  | 0 => (0, 0)
  | n + 1 =>
    if ((scan_state archive size n).1 : Int) < size then
      ((list_round archive (scan_state archive size n).1 (scan_state archive size n).2).1,
        (list_round archive (scan_state archive size n).1 (scan_state archive size n).2).2.1)
    else scan_state archive size n

/-- A file of 512 bytes whose bytes 124 to 135, where a header has its size
field, read `37777776000` and a NUL; its other bytes are zero. -/
def odd_file : List Nat :=
  zeros 124 ++ [51, 55, 55, 55, 55, 55, 55, 54, 48, 48, 48, 0] ++ zeros 376

/-- The environment `demo_env` with one file only, `l`, with the content
`odd_file`. -/
def odd_env : Env :=
  { demo_env with
    stat := fun p => if p = [108] then some (demo_stat 512 1000) else none
    fopen_r := fun p => if p = [108] then some odd_file else none }

/-- The archive `create_archive` writes for the file `l` of `odd_env`: its
header block, its data block `odd_file` and the footer. -/
def odd_archive : List Nat :=
  archive_of (create_archive odd_env demo_name none [[108]])

/-! ## Basic facts about the helpers -/

theorem store_length (old data : List Nat) : (store old data).length = old.length := by
  simp [store]; omega

theorem zeros_length (n : Nat) : (zeros n).length = n := by simp [zeros]

/-- The shape of a successful `fill_tar_header`. -/
theorem fill_tar_header_eq_some {env : Env} {name : List Nat} {h : tar_header}
    (hf : fill_tar_header env name = some h) :
    ∃ st pw gr, env.stat name = some st ∧ env.getpwuid st.st_uid = some pw ∧
      env.getgrgid st.st_gid = some gr ∧
      h = compute_checksum env.signed_char (filled_header name st pw gr) := by
  unfold fill_tar_header at hf
  cases hs : env.stat name with
  | none => simp [hs] at hf
  | some st =>
    cases hp : env.getpwuid st.st_uid with
    | none => simp [hs, hp] at hf
    | some pw =>
      cases hg : env.getgrgid st.st_gid with
      | none => simp [hs, hp, hg] at hf
      | some gr =>
        simp only [hs, hp, hg] at hf
        exact ⟨st, pw, gr, rfl, hp, hg, (Option.some.inj hf).symm⟩

/-- The result of `fill_tar_header` when `stat` and both lookups succeed. -/
theorem fill_tar_header_of {env : Env} {name : List Nat} {st : stat_t} {pw gr : List Nat}
    (hs : env.stat name = some st) (hp : env.getpwuid st.st_uid = some pw)
    (hg : env.getgrgid st.st_gid = some gr) :
    fill_tar_header env name =
      some (compute_checksum env.signed_char (filled_header name st pw gr)) := by
  unfold fill_tar_header
  simp only [hs, hp, hg]
  rfl

theorem header_bytes_length {env : Env} {name : List Nat} {h : tar_header}
    (hf : fill_tar_header env name = some h) : (header_bytes h).length = 512 := by
  obtain ⟨st, pw, gr, -, -, -, rfl⟩ := fill_tar_header_eq_some hf
  simp [header_bytes, compute_checksum, filled_header, store_length, zeros_length, REGTYPE]


theorem fread_length_ge (buffer : List Nat) (n : Nat) (file : List Nat) (pos : Nat) :
    buffer.length ≤ (fread buffer n file pos).1.length := by
  simp only [fread, List.length_append, List.length_drop]
  omega

theorem copy_loop_length_mod (source : List Nat) (size : Int) :
    ∀ (fuel : Nat) (i : Int) (buffer : List Nat) (pos : Nat) (out : List Nat),
      512 ≤ buffer.length → copy_loop source size fuel i buffer pos = some out →
      out.length % 512 = 0 := by
  intro fuel
  induction fuel with
  | zero =>
    intro i buffer pos out _ h
    unfold copy_loop at h
    split at h
    · cases h
    · cases h; rfl
  | succ fuel ih =>
    intro i buffer pos out hb h
    unfold copy_loop at h
    split at h
    · simp only at h
      split at h
      · cases h
      · rename_i out1 hrec
        cases h
        have hlen := fread_length_ge buffer
          (to_size_t (if wrap32 (size - i) ≥ 512 then 512 else wrap32 (size - i))) source pos
        have := ih _ _ _ _ (le_trans hb hlen) hrec
        simp only [List.length_append, List.length_take]
        omega
    · cases h; rfl

theorem copy_helper_length_mod {source data : List Nat} (h : copy_helper source = some data) :
    data.length % 512 = 0 := by
  unfold copy_helper at h
  exact copy_loop_length_mod _ _ _ _ _ _ _ (le_of_eq (zeros_length 512).symm) h

theorem entry_bytes_eq_some {env : Env} {name e : List Nat}
    (h : entry_bytes env name = some e) :
    ∃ source data, env.fopen_r name = some source ∧ copy_helper source = some data ∧
      ((∃ header, fill_tar_header env name = some header ∧ e = header_bytes header ++ data) ∨
        (fill_tar_header env name = none ∧ e = data)) := by
  unfold entry_bytes at h
  cases hs : env.fopen_r name with
  | none => simp only [hs] at h; cases h
  | some source =>
    cases hd : copy_helper source with
    | none => simp only [hs, hd] at h; cases h
    | some data =>
      cases hh : fill_tar_header env name with
      | none =>
        simp only [hs, hd, hh] at h
        exact ⟨source, data, rfl, hd, Or.inr ⟨rfl, (Option.some.inj h).symm⟩⟩
      | some header =>
        simp only [hs, hd, hh] at h
        exact ⟨source, data, rfl, hd, Or.inl ⟨header, rfl, (Option.some.inj h).symm⟩⟩

theorem entry_bytes_length_mod {env : Env} {name e : List Nat}
    (h : entry_bytes env name = some e) : e.length % 512 = 0 := by
  obtain ⟨source, data, -, hd, hh | hh⟩ := entry_bytes_eq_some h
  · obtain ⟨header, hh, rfl⟩ := hh
    have h1 := header_bytes_length hh
    have h2 := copy_helper_length_mod hd
    rw [List.length_append, h1]
    omega
  · obtain ⟨-, rfl⟩ := hh
    exact copy_helper_length_mod hd

theorem entries_cons_some {env : Env} {name : List Nat} {rest : List (List Nat)}
    {es : List (List Nat)} (h : entries env (name :: rest) = some es) :
    ∃ e es1, entry_bytes env name = some e ∧ entries env rest = some es1 ∧ es = e :: es1 := by
  unfold entries at h
  split at h
  · rename_i e es1 he hes
    cases h
    exact ⟨e, es1, he, hes, rfl⟩
  · cases h

theorem entries_length_mod {env : Env} :
    ∀ {files : List (List Nat)} {es : List (List Nat)}, entries env files = some es →
      es.flatten.length % 512 = 0 := by
  intro files
  induction files with
  | nil =>
    intro es h
    unfold entries at h
    cases h
    rfl
  | cons name rest ih =>
    intro es h
    obtain ⟨e, es1, he, hes, rfl⟩ := entries_cons_some h
    have h1 := entry_bytes_length_mod he
    have h2 := ih hes
    simp only [List.flatten_cons, List.length_append]
    omega

/-- One round of the writer loop on a file that has an entry appends the
entry. -/
theorem write_loop_cons {env : Env} {name e : List Nat} (he : entry_bytes env name = some e)
    (rest : List (List Nat)) (acc : List Nat) :
    write_loop env (name :: rest) acc = write_loop env rest (acc ++ e) := by
  unfold entry_bytes at he
  rw [write_loop]
  split at he
  · cases he
  · rename_i source hs
    split at he
    · cases he
    · rename_i data hd
      split at he
      · rename_i header hh
        cases he
        have hl := header_bytes_length hh
        simp only [hs, hh, hd, List.append_assoc]
        rw [List.take_of_length_le (le_of_eq hl)]
      · rename_i hh
        cases he
        simp only [hs, hh, hd]

theorem write_loop_prefix {env : Env} :
    ∀ {pre : List (List Nat)} {es : List (List Nat)}, entries env pre = some es →
      ∀ (rest : List (List Nat)) (acc : List Nat),
        write_loop env (pre ++ rest) acc = write_loop env rest (acc ++ es.flatten) := by
  intro pre
  induction pre with
  | nil =>
    intro es h rest acc
    unfold entries at h
    cases h
    simp
  | cons name pre ih =>
    intro es h rest acc
    obtain ⟨e, es1, he, hes, rfl⟩ := entries_cons_some h
    rw [List.cons_append, write_loop_cons he, ih hes]
    simp [List.append_assoc]

theorem write_loop_done {env : Env} :
    ∀ {files : List (List Nat)} {acc archive : List Nat},
      write_loop env files acc = some (none, archive) →
      ∃ es, entries env files = some es ∧ archive = acc ++ es.flatten := by
  intro files
  induction files with
  | nil =>
    intro acc archive h
    rw [write_loop] at h
    cases h
    exact ⟨[], rfl, by simp⟩
  | cons name rest ih =>
    intro acc archive h
    rw [write_loop] at h
    split at h
    · cases h
    · rename_i source hs
      simp only at h
      split at h
      · cases h
      · rename_i data hd
        obtain ⟨es1, hes, rfl⟩ := ih h
        cases hh : fill_tar_header env name with
        | none =>
          refine ⟨data :: es1, ?_, ?_⟩
          · simp [entries, entry_bytes, hs, hd, hh, hes]
          · simp [hh, List.append_assoc]
        | some header =>
          refine ⟨(header_bytes header ++ data) :: es1, ?_, ?_⟩
          · simp [entries, entry_bytes, hs, hd, hh, hes]
          · have hl := header_bytes_length hh
            simp [hh, List.append_assoc, List.take_of_length_le (le_of_eq hl)]

theorem write_loop_ret {env : Env} :
    ∀ {files : List (List Nat)} {acc archive : List Nat} {r : Int},
      write_loop env files acc = some (some r, archive) → r = 1 := by
  intro files
  induction files with
  | nil =>
    intro acc archive r h
    rw [write_loop] at h
    cases h
  | cons name rest ih =>
    intro acc archive r h
    rw [write_loop] at h
    cases hs : env.fopen_r name with
    | none =>
      rw [hs] at h
      cases h
      rfl
    | some source =>
      rw [hs] at h
      cases hd : copy_helper source with
      | none => simp only [hd] at h; cases h
      | some data =>
        simp only [hd] at h
        exact ih h

theorem drop_footer (body : List Nat) :
    (body ++ zeros 1024).drop ((body ++ zeros 1024).length - 1024) = zeros 1024 := by
  have h : (body ++ zeros 1024).length - 1024 = body.length := by
    simp [zeros_length]
  rw [h, List.drop_left]

theorem create_archive_success {env : Env} {archive_name : List Nat} {old : Option (List Nat)}
    {files : List (List Nat)} {archive : List Nat}
    (h : create_archive env archive_name old files = some (0, some archive)) :
    env.fopen_w archive_name = true ∧
      ∃ es, entries env files = some es ∧ archive = es.flatten ++ zeros 1024 := by
  unfold create_archive at h
  cases hw : env.fopen_w archive_name with
  | false =>
    rw [hw] at h
    simp at h
  | true =>
    rw [hw] at h
    refine ⟨rfl, ?_⟩
    cases hl : write_loop env files [] with
    | none => simp [hl] at h
    | some res =>
      obtain ⟨ret, body⟩ := res
      cases ret with
      | some r =>
        have hr := write_loop_ret hl
        subst hr
        simp [hl] at h
      | none =>
        obtain ⟨es, hes, hbody⟩ := write_loop_done hl
        simp only [hl, Bool.not_true, Bool.false_eq_true, if_false] at h
        refine ⟨es, hes, ?_⟩
        have h2 := (Prod.mk.inj (Option.some.inj h)).2
        have h3 := Option.some.inj h2
        rw [← h3, hbody]
        simp

theorem append_success {env : Env} {archive_name : List Nat} {A : List Nat}
    {files : List (List Nat)} {archive : List Nat}
    (h : append_files_to_archive env archive_name (some A) files = some (0, some archive)) :
    env.fopen_w archive_name = true ∧ ∃ es, entries env files = some es ∧
      archive = (remove_trailing_bytes env archive_name A 1024).2 ++ es.flatten ++ zeros 1024 := by
  unfold append_files_to_archive at h
  simp only at h
  split at h
  · simp at h
  · split at h
    · simp at h
    · rename_i hw
      refine ⟨by simpa using hw, ?_⟩
      cases hl : write_loop env files (remove_trailing_bytes env archive_name A 1024).2 with
      | none => simp [hl] at h
      | some res =>
        obtain ⟨ret, body⟩ := res
        cases ret with
        | some r =>
          have hr := write_loop_ret hl
          subst hr
          simp [hl] at h
        | none =>
          obtain ⟨es, hes, hbody⟩ := write_loop_done hl
          simp only [hl] at h
          refine ⟨es, hes, ?_⟩
          have h2 := (Prod.mk.inj (Option.some.inj h)).2
          have h3 := Option.some.inj h2
          rw [← h3, hbody]

theorem remove_trailing_bytes_length_mod (env : Env) (archive_name A : List Nat)
    (hA : A.length % 512 = 0) :
    (remove_trailing_bytes env archive_name A 1024).2.length % 512 = 0 := by
  unfold remove_trailing_bytes
  split
  · exact hA
  · simp only
    split
    · exact hA
    · simp only [List.length_take]
      omega

/-- C4. Block alignment: whenever `create_archive` returns success the
archive has a length that is a multiple of 512 and ends in 1024 zero bytes;
and whenever `append_files_to_archive` returns success on an archive whose
length is a multiple of 512 and at least 1024, the same holds of the archive
it leaves. -/
theorem archive_block_aligned (env : Env) (archive_name : List Nat) (files : List (List Nat)) :
    (∀ (old : Option (List Nat)) (archive : List Nat),
        create_archive env archive_name old files = some (0, some archive) →
        archive.length % 512 = 0 ∧ archive.drop (archive.length - 1024) = zeros 1024) ∧
    (∀ (A archive : List Nat), A.length % 512 = 0 → 1024 ≤ A.length →
        append_files_to_archive env archive_name (some A) files = some (0, some archive) →
        archive.length % 512 = 0 ∧ archive.drop (archive.length - 1024) = zeros 1024) := by
  constructor
  · intro old archive h
    obtain ⟨-, es, hes, rfl⟩ := create_archive_success h
    refine ⟨?_, drop_footer _⟩
    have := entries_length_mod hes
    simp only [List.length_append, zeros_length]
    omega
  · intro A archive hA _ h
    obtain ⟨-, es, hes, rfl⟩ := append_success h
    refine ⟨?_, drop_footer _⟩
    have h1 := entries_length_mod hes
    have h2 := remove_trailing_bytes_length_mod env archive_name A hA
    simp only [List.length_append, zeros_length]
    omega

/-- C4, at a concrete input: the archive of the file `a` of `demo_env`, and
the archive after the file `b` is appended to it, are block aligned and end
in the footer. -/
theorem archive_block_aligned_witness :
    (demo_created.length % 512 = 0 ∧
      demo_created.drop (demo_created.length - 1024) = zeros 1024) ∧
    (demo_appended.length % 512 = 0 ∧
      demo_appended.drop (demo_appended.length - 1024) = zeros 1024) :=
  ⟨(archive_block_aligned demo_env demo_name [[97]]).1 none demo_created (by decide!),
   (archive_block_aligned demo_env demo_name [[98]]).2 demo_created demo_appended
     (by decide!) (by decide!) (by decide!)⟩

theorem remove_trailing_bytes_ok {env : Env} {archive_name A : List Nat} {n : Nat}
    (hw : env.fopen_w archive_name = true) (hn : n ≤ A.length) :
    remove_trailing_bytes env archive_name A n = (0, A.take (A.length - n)) := by
  unfold remove_trailing_bytes
  rw [hw]
  have h1 : ¬ ((A.length : Int) - (n : Int) < 0) := by omega
  have h2 : ((A.length : Int) - (n : Int)).toNat = A.length - n := by omega
  simp only [Bool.not_true, Bool.false_eq_true, if_false, h1, h2]

/-- C5. Append frame and growth: a successful `append_files_to_archive` on an
archive `A` of at least 1024 bytes leaves `A` without its last 1024 bytes,
followed by the entries of the files in list order (for a file whose header
could be encoded: the header block and the data blocks), followed by 1024
zero bytes; the first `n - 1024` bytes are those of `A`, and the new length
is `(n - 1024)` plus the lengths of the entries plus 1024. -/
theorem append_frame_and_growth (env : Env) (archive_name A : List Nat)
    (files : List (List Nat)) (archive : List Nat) (hn : 1024 ≤ A.length)
    (h : append_files_to_archive env archive_name (some A) files = some (0, some archive)) :
    ∃ es, entries env files = some es ∧
      archive = A.take (A.length - 1024) ++ es.flatten ++ zeros 1024 ∧
      archive.take (A.length - 1024) = A.take (A.length - 1024) ∧
      archive.length = (A.length - 1024) + (es.map List.length).sum + 1024 := by
  obtain ⟨hw, es, hes, harch⟩ := append_success h
  rw [remove_trailing_bytes_ok hw hn] at harch
  simp only at harch
  refine ⟨es, hes, harch, ?_, ?_⟩
  · rw [harch, List.append_assoc]
    apply List.take_left'
    simp only [List.length_take]
    omega
  · rw [harch]
    simp only [List.length_append, List.length_take, zeros_length, List.length_flatten]
    omega

/-- C5, at a concrete input: appending the file `b` of `demo_env` to the
archive of the file `a`. -/
theorem append_frame_and_growth_witness :
    ∃ es, entries demo_env [[98]] = some es ∧
      demo_appended = demo_created.take (demo_created.length - 1024) ++ es.flatten ++ zeros 1024 ∧
      demo_appended.take (demo_created.length - 1024) =
        demo_created.take (demo_created.length - 1024) ∧
      demo_appended.length = (demo_created.length - 1024) + (es.map List.length).sum + 1024 :=
  append_frame_and_growth demo_env demo_name demo_created [[98]] demo_appended
    (by decide!) (by decide!)

theorem strncpy_length (src : List Nat) (n : Nat) : (strncpy src n).length = n := by
  simp only [strncpy, List.length_append, List.length_take, zeros_length]
  omega

theorem store_full (old data : List Nat) (h : data.length = old.length) :
    store old data = data := by
  unfold store
  exact List.take_left' h

theorem strncpy_eq_of_take_eq {p q : List Nat} {n : Nat} (h : q.take n = p.take n) :
    strncpy q n = strncpy p n := by
  have hl : (q.take n).length = (p.take n).length := by rw [h]
  simp only [List.length_take] at hl
  have h2 : n - q.length = n - p.length := by omega
  simp only [strncpy, h, h2]

theorem compute_checksum_name (s : Bool) (h : tar_header) :
    (compute_checksum s h).name = h.name := rfl

theorem compute_checksum_size (s : Bool) (h : tar_header) :
    (compute_checksum s h).size = h.size := rfl

/-- C8. Name field and truncation: the name field of the header
`fill_tar_header` produces for the path `p` is the first `min (len p) 100`
bytes of `p`, zero filled to 100 bytes; a path of more than 100 bytes is
stored as its first 100 bytes; and the bytes of `p` past the first 100 change
nothing in the header: every path with the same first 100 bytes and the same
metadata gets the same header. -/
theorem name_field_truncation (env : Env) (p : List Nat) (h : tar_header)
    (hf : fill_tar_header env p = some h) :
    h.name = p.take (min p.length 100) ++ zeros (100 - min p.length 100) ∧
    (100 < p.length → h.name = p.take 100) ∧
    (∀ q : List Nat, q.take 100 = p.take 100 → env.stat q = env.stat p →
      fill_tar_header env q = some h) := by
  obtain ⟨st, pw, gr, hs, hp, hg, rfl⟩ := fill_tar_header_eq_some hf
  have hname : (compute_checksum env.signed_char (filled_header p st pw gr)).name =
      strncpy p 100 := by
    rw [compute_checksum_name]
    show store (zeros 100) (strncpy p 100) = strncpy p 100
    exact store_full _ _ (by rw [strncpy_length, zeros_length])
  refine ⟨?_, ?_, ?_⟩
  · rw [hname]
    unfold strncpy
    by_cases hle : p.length ≤ 100
    · rw [Nat.min_eq_left hle, List.take_of_length_le hle, List.take_of_length_le (le_refl _)]
    · have hge : 100 ≤ p.length := by omega
      rw [Nat.min_eq_right hge]
      have h0 : 100 - p.length = 100 - 100 := by omega
      rw [h0]
  · intro hlong
    rw [hname]
    unfold strncpy
    have h0 : 100 - p.length = 0 := by omega
    rw [h0]
    simp [zeros]
  · intro q hq hstat
    rw [fill_tar_header_of (hstat.trans hs) hp hg]
    have h1 : filled_header q st pw gr = filled_header p st pw gr := by
      unfold filled_header
      rw [strncpy_eq_of_take_eq hq]
    rw [h1]

/-- C8, at a concrete input: the path of 101 letters `p` in `demo_env`. -/
theorem name_field_truncation_witness :
    demo_long_header.name = demo_long.take (min demo_long.length 100) ++
        zeros (100 - min demo_long.length 100) ∧
    (100 < demo_long.length → demo_long_header.name = demo_long.take 100) ∧
    (∀ q : List Nat, q.take 100 = demo_long.take 100 →
      demo_env.stat q = demo_env.stat demo_long →
      fill_tar_header demo_env q = some demo_long_header) :=
  name_field_truncation demo_env demo_long demo_long_header (by decide!)

/-! ## Octal fields -/

theorem wrap32_of_range {x : Int} (h1 : -2147483648 ≤ x) (h2 : x < 2147483648) :
    wrap32 x = x := by
  unfold wrap32
  simp only
  split <;> omega

theorem wrap32_eq_add (x : Int) : ∃ k : Int, wrap32 x = x + k * 4294967296 := by
  refine ⟨(wrap32 x - x) / 4294967296, ?_⟩
  unfold wrap32
  simp only
  split <;> omega

theorem wrap32_congr {a b : Int} (h : a % 4294967296 = b % 4294967296) :
    wrap32 a = wrap32 b := by
  unfold wrap32
  rw [h]

theorem decode_step_digit {d : Nat} (hd : 48 ≤ d ∧ d ≤ 57) (st : Int × Int) :
    decode_step d st =
      (wrap32 (st.1 + wrap32 (((d : Int) - 48) * st.2)), wrap32 (st.2 * 8)) := by
  unfold decode_step
  rw [if_pos hd]

theorem decode_step_other {d : Nat} (hd : ¬ (48 ≤ d ∧ d ≤ 57)) (st : Int × Int) :
    decode_step d st = st := by
  unfold decode_step
  rw [if_neg hd]

theorem octal_value_cons (d : Nat) (ds : List Nat) :
    octal_value (d :: ds) = ((d : Int) - 48) * 8 ^ ds.length + octal_value ds := rfl

/-- The decoding loop on a string of digits computes its octal value, reduced
to an `int`. -/
theorem foldr_decode_step_digits :
    ∀ ds : List Nat, (∀ d ∈ ds, 48 ≤ d ∧ d ≤ 57) →
      ds.foldr decode_step (0, 1) = (wrap32 (octal_value ds), wrap32 (8 ^ ds.length)) := by
  intro ds
  induction ds with
  | nil =>
    intro _
    simp only [List.foldr_nil, octal_value, List.length_nil, pow_zero]
    rw [wrap32_of_range (by norm_num) (by norm_num), wrap32_of_range (by norm_num) (by norm_num)]
  | cons d ds ih =>
    intro hd
    have hd0 := hd d (List.mem_cons_self d ds)
    have ih1 := ih (fun x hx => hd x (List.mem_cons_of_mem d hx))
    rw [List.foldr_cons, ih1, decode_step_digit hd0]
    simp only
    obtain ⟨k1, h1⟩ := wrap32_eq_add (octal_value ds)
    obtain ⟨k2, h2⟩ := wrap32_eq_add (8 ^ ds.length)
    obtain ⟨k3, h3⟩ := wrap32_eq_add (((d : Int) - 48) * wrap32 (8 ^ ds.length))
    congr 1
    · apply wrap32_congr
      rw [h3, h2, h1]
      have e : octal_value ds + k1 * 4294967296 +
          (((d : Int) - 48) * (8 ^ ds.length + k2 * 4294967296) + k3 * 4294967296) =
          octal_value (d :: ds) + (k1 + ((d : Int) - 48) * k2 + k3) * 4294967296 := by
        rw [octal_value_cons]
        ring
      rw [e, Int.add_mul_emod_self]
    · apply wrap32_congr
      rw [h2]
      have e : (8 ^ ds.length + k2 * 4294967296) * 8 =
          (8 : Int) ^ (d :: ds).length + (k2 * 8) * 4294967296 := by
        simp only [List.length_cons, pow_succ]
        ring
      rw [e, Int.add_mul_emod_self]

theorem octal_value_append_single (xs : List Nat) (d : Nat) :
    octal_value (xs ++ [d]) = 8 * octal_value xs + ((d : Int) - 48) := by
  induction xs with
  | nil => simp [octal_value]
  | cons x xs ih =>
    rw [List.cons_append, octal_value_cons, octal_value_cons, ih, List.length_append,
      List.length_singleton, pow_succ]
    ring

theorem octal_value_zeros_append (k : Nat) (ds : List Nat) :
    octal_value (List.replicate k 48 ++ ds) = octal_value ds := by
  induction k with
  | zero => simp
  | succ k ih =>
    rw [List.replicate_succ, List.cons_append, octal_value_cons, ih]
    simp

theorem octal_digits_value :
    ∀ (fuel n : Nat), n < 8 ^ fuel → octal_value (octal_digits fuel n) = (n : Int) := by
  intro fuel
  induction fuel with
  | zero =>
    intro n hn
    simp only [pow_zero, Nat.lt_one_iff] at hn
    subst hn
    simp [octal_digits, octal_value]
  | succ fuel ih =>
    intro n hn
    unfold octal_digits
    split
    · simp only [octal_value, List.length_nil, pow_zero]
      push_cast
      ring
    · have hdiv : n / 8 < 8 ^ fuel := by
        apply Nat.div_lt_of_lt_mul
        rw [pow_succ] at hn
        omega
      rw [octal_value_append_single, ih _ hdiv]
      push_cast
      omega

theorem octal_digits_length :
    ∀ (fuel n : Nat), (octal_digits fuel n).length ≤ fuel := by
  intro fuel
  induction fuel with
  | zero => intro n; simp [octal_digits]
  | succ fuel ih =>
    intro n
    unfold octal_digits
    split
    · simp
    · have := ih (n / 8)
      simp only [List.length_append, List.length_singleton]
      omega

theorem octal_digits_range :
    ∀ (fuel n : Nat), ∀ d ∈ octal_digits fuel n, 48 ≤ d ∧ d ≤ 55 := by
  intro fuel
  induction fuel with
  | zero => intro n d hd; simp [octal_digits] at hd
  | succ fuel ih =>
    intro n d hd
    unfold octal_digits at hd
    split at hd
    · simp only [List.mem_singleton] at hd
      omega
    · rw [List.mem_append] at hd
      rcases hd with hd | hd
      · exact ih _ d hd
      · simp only [List.mem_singleton] at hd
        omega

theorem fmt_octal_length (x : Nat) : (fmt_octal 11 x).length = 11 := by
  unfold fmt_octal
  have := octal_digits_length 11 (x % 4294967296)
  simp only [List.length_append, List.length_replicate]
  omega

theorem fmt_octal_range (w x : Nat) : ∀ d ∈ fmt_octal w x, 48 ≤ d ∧ d ≤ 55 := by
  intro d hd
  unfold fmt_octal at hd
  simp only [List.mem_append] at hd
  rcases hd with hd | hd
  · have := (List.mem_replicate.mp hd).2
    omega
  · exact octal_digits_range _ _ d hd

theorem fmt_octal_value (w x : Nat) : octal_value (fmt_octal w x) = ((x % 4294967296 : Nat) : Int) := by
  unfold fmt_octal
  simp only
  rw [octal_value_zeros_append]
  apply octal_digits_value
  have : x % 4294967296 < 4294967296 := Nat.mod_lt _ (by norm_num)
  calc x % 4294967296 < 4294967296 := this
    _ ≤ 8 ^ 11 := by norm_num

/-- The size field `fill_tar_header` writes: eleven octal digits and a NUL. -/
theorem size_field_eq {env : Env} {name : List Nat} {st : stat_t} {h : tar_header}
    (hs : env.stat name = some st) (hf : fill_tar_header env name = some h) :
    h.size = fmt_octal 11 st.st_size ++ [0] := by
  obtain ⟨st1, pw, gr, hs1, -, -, rfl⟩ := fill_tar_header_eq_some hf
  rw [hs] at hs1
  cases hs1
  rw [compute_checksum_size]
  show store (zeros 12) (snprintf 12 (fmt_octal 11 st.st_size)) = _
  have hl := fmt_octal_length st.st_size
  have e : snprintf 12 (fmt_octal 11 st.st_size) = fmt_octal 11 st.st_size ++ [0] := by
    unfold snprintf
    rw [List.take_of_length_le (by omega)]
  rw [e]
  apply store_full
  simp only [List.length_append, List.length_singleton, zeros_length, hl]

/-- The decoding loop on a field of eleven octal digits and a NUL. -/
theorem decode_size_fmt_octal (x : Nat) :
    decode_size (fmt_octal 11 x ++ [0]) = wrap32 ((x % 4294967296 : Nat) : Int) := by
  unfold decode_size
  have hl := fmt_octal_length x
  rw [List.take_of_length_le (by simp only [List.length_append, List.length_singleton]; omega)]
  rw [List.foldr_append]
  simp only [List.foldr_cons, List.foldr_nil]
  rw [decode_step_other (by omega)]
  rw [foldr_decode_step_digits _ (fun d hd => by have := fmt_octal_range 11 x d hd; omega)]
  simp only
  rw [fmt_octal_value]

/-- C7, as amended. Size field round trip for sizes below 2^31: the size
field `fill_tar_header` writes is eleven ASCII octal digits and a NUL (this
for every size), and the decoding loop of `get_archive_file_list` and
`extract_files_from_archive` returns the size from it when the size is less
than 2^31. -/
theorem size_field_roundtrip (env : Env) (name : List Nat) (st : stat_t) (h : tar_header)
    (hs : env.stat name = some st) (hf : fill_tar_header env name = some h)
    (hlt : st.st_size < 2147483648) :
    h.size.length = 12 ∧ (∀ d ∈ h.size.take 11, 48 ≤ d ∧ d ≤ 55) ∧ h.size.drop 11 = [0] ∧
      decode_size h.size = (st.st_size : Int) := by
  have he := size_field_eq hs hf
  have hl := fmt_octal_length st.st_size
  rw [he]
  refine ⟨?_, ?_, ?_, ?_⟩
  · simp only [List.length_append, List.length_singleton, hl]
  · rw [List.take_left' hl]
    exact fmt_octal_range 11 st.st_size
  · rw [List.drop_left' hl]
  · rw [decode_size_fmt_octal]
    have e : st.st_size % 4294967296 = st.st_size := Nat.mod_eq_of_lt (by omega)
    rw [e]
    exact wrap32_of_range (by omega) (by omega)

/-- C7, at a concrete input: the file `c` of `demo_env`, of 513 bytes. -/
theorem size_field_roundtrip_witness :
    demo_c_header.size.length = 12 ∧ (∀ d ∈ demo_c_header.size.take 11, 48 ≤ d ∧ d ≤ 55) ∧
      demo_c_header.size.drop 11 = [0] ∧
      decode_size demo_c_header.size = ((demo_stat 513 1000).st_size : Int) :=
  size_field_roundtrip demo_env [99] (demo_stat 513 1000) demo_c_header
    (by decide!) (by decide!) (by decide!)

/-- C7 as stated fails: the file `g` of `demo_env` has size 2^32, which is
less than 8^11; its size field is eleven digits `0` and a NUL, and the
decoding loop returns 0 from it. The file `h` has size 2^31; its size field
is `20000000000` and a NUL, and the decoding loop, whose sum is an `int`,
returns -2^31 from it. -/
theorem size_field_roundtrip_fails_at_2_pow_32 :
    ((demo_env.stat [103]).map (fun st => st.st_size) = some 4294967296 ∧
      4294967296 < 8 ^ 11 ∧
      (fill_tar_header demo_env [103]).map (fun h => h.size) =
        some [48, 48, 48, 48, 48, 48, 48, 48, 48, 48, 48, 0] ∧
      (fill_tar_header demo_env [103]).map (fun h => decode_size h.size) = some 0) ∧
    ((demo_env.stat [104]).map (fun st => st.st_size) = some 2147483648 ∧
      2147483648 < 8 ^ 11 ∧
      (fill_tar_header demo_env [104]).map (fun h => h.size) =
        some [50, 48, 48, 48, 48, 48, 48, 48, 48, 48, 48, 0] ∧
      (fill_tar_header demo_env [104]).map (fun h => decode_size h.size) =
        some (-2147483648)) := by
  decide!

/-! ## Fuel -/

theorem list_loop_fuel_succ (archive : List Nat) (size : Int) :
    ∀ (fuel pos : Nat) (i : Int) (files : List (List Nat)) (r : Int × List (List Nat)),
      list_loop archive size fuel pos i files = some r →
      list_loop archive size (fuel + 1) pos i files = some r := by
  intro fuel
  induction fuel with
  | zero =>
    intro pos i files r h
    unfold list_loop at h
    unfold list_loop
    split at h
    · cases h
    · rename_i hlt
      rw [if_neg hlt]
      exact h
  | succ fuel ih =>
    intro pos i files r h
    rw [list_loop] at h
    rw [list_loop]
    split at h
    · rename_i hlt
      rw [if_pos hlt]
      exact ih _ _ _ _ h
    · rename_i hlt
      rw [if_neg hlt]
      exact h

theorem list_loop_fuel_le (archive : List Nat) (size : Int) {fuel fuel1 : Nat}
    (hle : fuel ≤ fuel1) (pos : Nat) (i : Int) (files : List (List Nat))
    (r : Int × List (List Nat)) (h : list_loop archive size fuel pos i files = some r) :
    list_loop archive size fuel1 pos i files = some r := by
  induction hle with
  | refl => exact h
  | step _ ih => exact list_loop_fuel_succ _ _ _ _ _ _ _ ih

/-- More fuel does not change a result of `get_archive_file_list`. -/
theorem get_archive_file_list_fuel_le {fuel fuel1 : Nat} (hle : fuel ≤ fuel1)
    (archive : Option (List Nat)) (files : List (List Nat)) (r : Int × List (List Nat))
    (h : get_archive_file_list fuel archive files = some r) :
    get_archive_file_list fuel1 archive files = some r := by
  cases archive with
  | none => exact h
  | some a => exact list_loop_fuel_le a _ hle _ _ _ _ h

theorem extract_loop_fuel_succ (env : Env) (archive : List Nat) :
    ∀ (fuel : Nat) (buffer : List Nat) (pos : Nat) (disk : Disk) (r : Int × Disk),
      extract_loop env archive fuel buffer pos disk = some r →
      extract_loop env archive (fuel + 1) buffer pos disk = some r := by
  intro fuel
  induction fuel with
  | zero =>
    intro buffer pos disk r h
    cases buffer with
    | nil =>
      rw [extract_loop] at h
      cases h
    | cons b rest =>
      rw [extract_loop] at h
      rw [extract_loop]
      simp only at h ⊢
      split at h
      · cases h
      · rename_i hb
        rw [if_neg hb]
        exact h
  | succ fuel ih =>
    intro buffer pos disk r h
    cases buffer with
    | nil =>
      rw [extract_loop] at h
      cases h
    | cons b rest =>
      rw [extract_loop] at h
      rw [extract_loop]
      simp only at h ⊢
      split at h
      · rename_i hb
        rw [if_pos hb]
        split at h
        · cases h
        · rename_i hlen
          rw [if_neg hlen]
          split at h
          · rename_i hw
            rw [if_pos hw]
            exact h
          · rename_i hw
            rw [if_neg hw]
            split at h
            · cases h
            · rename_i b2 p2 o2 _
              split at h
              · rename_i hpad
                rw [if_pos hpad]
                split at h
                · cases h
                · rename_i w _
                  exact ih _ _ _ _ h
              · rename_i hpad
                rw [if_neg hpad]
                exact ih _ _ _ _ h
      · rename_i hb
        rw [if_neg hb]
        exact h

theorem extract_loop_fuel_le (env : Env) (archive : List Nat) {fuel fuel1 : Nat}
    (hle : fuel ≤ fuel1) (buffer : List Nat) (pos : Nat) (disk : Disk) (r : Int × Disk)
    (h : extract_loop env archive fuel buffer pos disk = some r) :
    extract_loop env archive fuel1 buffer pos disk = some r := by
  induction hle with
  | refl => exact h
  | step _ ih => exact extract_loop_fuel_succ _ _ _ _ _ _ _ ih

/-- More fuel does not change a result of `extract_files_from_archive`. -/
theorem extract_files_fuel_le (env : Env) {fuel fuel1 : Nat} (hle : fuel ≤ fuel1)
    (heap : List Nat) (archive : Option (List Nat)) (disk : Disk) (r : Int × Disk)
    (h : extract_files_from_archive env fuel heap archive disk = some r) :
    extract_files_from_archive env fuel1 heap archive disk = some r := by
  cases archive with
  | none => exact h
  | some a => exact extract_loop_fuel_le env a hle _ _ _ _ h

/-! ## Termination of the copy loop -/

theorem copy_loop_fuel_succ (source : List Nat) (size : Int) :
    ∀ (fuel : Nat) (i : Int) (buffer : List Nat) (pos : Nat) (out : List Nat),
      copy_loop source size fuel i buffer pos = some out →
      copy_loop source size (fuel + 1) i buffer pos = some out := by
  intro fuel
  induction fuel with
  | zero =>
    intro i buffer pos out h
    rw [copy_loop] at h
    rw [copy_loop]
    split at h
    · cases h
    · rename_i hlt
      rw [if_neg hlt]
      exact h
  | succ fuel ih =>
    intro i buffer pos out h
    rw [copy_loop] at h
    rw [copy_loop]
    split at h
    · rename_i hlt
      rw [if_pos hlt]
      simp only at h ⊢
      split at h
      · cases h
      · rename_i out1 hrec
        rw [ih _ _ _ _ hrec]
        exact h
    · rename_i hlt
      rw [if_neg hlt]
      exact h

theorem copy_loop_fuel_le (source : List Nat) (size : Int) {fuel fuel1 : Nat}
    (hle : fuel ≤ fuel1) (i : Int) (buffer : List Nat) (pos : Nat) (out : List Nat)
    (h : copy_loop source size fuel i buffer pos = some out) :
    copy_loop source size fuel1 i buffer pos = some out := by
  induction hle with
  | refl => exact h
  | step _ ih => exact copy_loop_fuel_succ _ _ _ _ _ _ _ ih

/-- The copy loop terminates when the counter cannot overflow: with
`size ≤ 2^31 - 512` and enough fuel it returns, having written one block for
every 512 bytes of `size - i`, rounded up. -/
theorem copy_loop_terminates (source : List Nat) (size : Int) (hsize : size ≤ 2147483136) :
    ∀ (fuel : Nat) (i : Int) (buffer : List Nat) (pos : Nat),
      0 ≤ i → size - i ≤ 512 * (fuel : Int) → 512 ≤ buffer.length →
      ∃ out, copy_loop source size fuel i buffer pos = some out ∧
        (out.length : Int) = 512 * ((size - i + 511) / 512).toNat := by
  intro fuel
  induction fuel with
  | zero =>
    intro i buffer pos hi hf _
    rw [copy_loop]
    have hlt : ¬ i < size := by omega
    rw [if_neg hlt]
    refine ⟨[], rfl, ?_⟩
    simp only [List.length_nil]
    omega
  | succ fuel ih =>
    intro i buffer pos hi hf hb
    rw [copy_loop]
    by_cases hlt : i < size
    · rw [if_pos hlt]
      simp only
      have hw : wrap32 (i + 512) = i + 512 := wrap32_of_range (by omega) (by omega)
      rw [hw]
      have hlen := fread_length_ge buffer
        (to_size_t (if wrap32 (size - i) ≥ 512 then 512 else wrap32 (size - i))) source pos
      obtain ⟨out, hout, hl⟩ := ih (i + 512) _
        (fread buffer (to_size_t (if wrap32 (size - i) ≥ 512 then 512 else wrap32 (size - i)))
          source pos).2 (by omega) (by push_cast at hf ⊢; omega) (le_trans hb hlen)
      rw [hout]
      refine ⟨_, rfl, ?_⟩
      simp only [List.length_append, List.length_take]
      push_cast
      rw [hl]
      omega
    · rw [if_neg hlt]
      refine ⟨[], rfl, ?_⟩
      simp only [List.length_nil]
      omega

/-- The copy loop never returns when `size` is above `2^31 - 512`: the
counter, a multiple of 512, wraps around before it reaches `size`. -/
theorem copy_loop_diverges (source : List Nat) (size : Int) (hsize : 2147483136 < size) :
    ∀ (fuel : Nat) (i : Int) (buffer : List Nat) (pos : Nat),
      i % 512 = 0 → -2147483648 ≤ i → i < 2147483648 →
      copy_loop source size fuel i buffer pos = none := by
  intro fuel
  induction fuel with
  | zero =>
    intro i buffer pos hm _ h2
    rw [copy_loop]
    have hlt : i < size := by omega
    rw [if_pos hlt]
  | succ fuel ih =>
    intro i buffer pos hm h1 h2
    rw [copy_loop]
    have hlt : i < size := by omega
    rw [if_pos hlt]
    simp only
    have hw : wrap32 (i + 512) % 512 = 0 ∧ -2147483648 ≤ wrap32 (i + 512) ∧
        wrap32 (i + 512) < 2147483648 := by
      unfold wrap32
      simp only
      split <;> omega
    rw [ih _ _ _ hw.1 hw.2.1 hw.2.2]

theorem wrap32_length_le (n : Nat) : wrap32 (n : Int) ≤ (n : Int) := by
  unfold wrap32
  simp only
  split <;> omega

/-- The fuel `copy_helper` gives its loop is enough: whatever the loop
returns with any amount of fuel, `copy_helper` returns. So `copy_helper`
is `none` only for a loop that does not terminate. -/
theorem copy_helper_fuel_exact (source : List Nat) (fuel : Nat) (out : List Nat)
    (h : copy_loop source (wrap32 source.length) fuel 0 (zeros 512) 0 = some out) :
    copy_helper source = some out := by
  by_cases hsize : wrap32 (source.length : Int) ≤ 2147483136
  · have hle := wrap32_length_le source.length
    obtain ⟨out1, h1, -⟩ := copy_loop_terminates source _ hsize (source.length / 512 + 1) 0
      (zeros 512) 0 (le_refl _) (by push_cast; omega) (by rw [zeros_length])
    have a1 := copy_loop_fuel_le source _ (Nat.le_max_left fuel (source.length / 512 + 1)) _ _ _ _ h
    have a2 := copy_loop_fuel_le source _ (Nat.le_max_right fuel (source.length / 512 + 1))
      _ _ _ _ h1
    rw [a1] at a2
    unfold copy_helper
    rw [h1, Option.some.inj a2]
  · rw [copy_loop_diverges source _ (by omega) fuel 0 _ _ (by norm_num) (by norm_num)
      (by norm_num)] at h
    cases h

/-- For a source below `2^31 - 512` bytes `copy_helper` returns, with one
block for every 512 bytes of the source, rounded up. -/
theorem copy_helper_length {source : List Nat} (hlen : source.length ≤ 2147483136) :
    ∃ data, copy_helper source = some data ∧
      data.length = 512 * ((source.length + 511) / 512) := by
  have hw : wrap32 (source.length : Int) = (source.length : Int) :=
    wrap32_of_range (by omega) (by omega)
  unfold copy_helper
  rw [hw]
  obtain ⟨out, h1, h2⟩ := copy_loop_terminates source (source.length : Int) (by omega)
    (source.length / 512 + 1) 0 (zeros 512) 0 (le_refl _) (by push_cast; omega)
    (by rw [zeros_length])
  refine ⟨out, h1, ?_⟩
  have e : ((source.length : Int) - 0 + 511) / 512 = (((source.length + 511) / 512 : Nat) : Int) := by
    push_cast
    omega
  rw [e, Int.toNat_ofNat] at h2
  exact_mod_cast h2

/-! ## The checksum on headers without sign extension -/

theorem octal_digits_length_le :
    ∀ (fuel k n : Nat), 1 ≤ k → n < 8 ^ k → (octal_digits fuel n).length ≤ k := by
  intro fuel
  induction fuel with
  | zero => intro k n _ _; simp [octal_digits]
  | succ fuel ih =>
    intro k n hk hn
    unfold octal_digits
    split
    · simpa using hk
    · rename_i h8
      obtain ⟨j, rfl⟩ : ∃ j, k = j + 1 := ⟨k - 1, by omega⟩
      have hj : 1 ≤ j := by
        rcases Nat.eq_zero_or_pos j with h0 | h0
        · subst h0
          simp at hn
          omega
        · exact h0
      have hdiv : n / 8 < 8 ^ j := by
        apply Nat.div_lt_of_lt_mul
        rw [pow_succ] at hn
        omega
      have := ih j (n / 8) hj hdiv
      simp only [List.length_append, List.length_singleton]
      omega

theorem fmt_octal_7_length {x : Nat} (hx : x < 2097152) : (fmt_octal 7 x).length = 7 := by
  unfold fmt_octal
  have hm : x % 4294967296 = x := Nat.mod_eq_of_lt (by omega)
  have := octal_digits_length_le 11 7 (x % 4294967296) (by norm_num) (by rw [hm]; omega)
  simp only [List.length_append, List.length_replicate]
  omega

theorem byte_sum_foldl (s : Bool) (bound : Nat) (hbound : bound = if s then 128 else 256) :
    ∀ (bytes : List Nat) (acc : Nat), (∀ b ∈ bytes, b < bound) →
      bytes.foldl (fun sum b => to_unsigned ((sum : Int) + char_val s b)) acc =
        bytes.foldl (fun sum b => (sum + b) % 4294967296) acc := by
  intro bytes
  induction bytes with
  | nil => intro acc _; rfl
  | cons b bs ih =>
    intro acc hb
    have hb0 := hb b (List.mem_cons_self b bs)
    have hval : char_val s b = (b : Int) := by
      unfold char_val
      cases s with
      | false => simp
      | true =>
        simp only [hbound, if_true] at hb0
        have : ¬ (128 ≤ b) := by omega
        simp [this]
    simp only [List.foldl_cons]
    rw [hval]
    have e : to_unsigned ((acc : Int) + (b : Int)) = (acc + b) % 4294967296 := by
      unfold to_unsigned
      omega
    rw [e]
    exact ih _ (fun x hx => hb x (List.mem_cons_of_mem b hx))

theorem foldl_add_mod (bytes : List Nat) :
    ∀ acc : Nat, acc + bytes.sum < 4294967296 →
      bytes.foldl (fun sum b => (sum + b) % 4294967296) acc = acc + bytes.sum := by
  induction bytes with
  | nil => intro acc _; simp
  | cons b bs ih =>
    intro acc h
    simp only [List.sum_cons] at h
    simp only [List.foldl_cons, List.sum_cons]
    rw [Nat.mod_eq_of_lt (by omega), ih _ (by omega)]
    omega

theorem sum_le_of_bytes (bytes : List Nat) (h : ∀ b ∈ bytes, b < 256) :
    bytes.sum ≤ 255 * bytes.length := by
  induction bytes with
  | nil => simp
  | cons b bs ih =>
    have h1 := h b (List.mem_cons_self b bs)
    have h2 := ih (fun x hx => h x (List.mem_cons_of_mem b hx))
    simp only [List.sum_cons, List.length_cons]
    omega

theorem blank_bytes_small (bound : Nat) (h32 : 32 < bound) (h : tar_header)
    (hb : ∀ b ∈ header_bytes h, b < bound) :
    ∀ b ∈ header_bytes { h with chksum := List.replicate 8 32 }, b < bound := by
  intro b hmem
  simp only [header_bytes, List.mem_append] at hmem hb
  rcases hmem with ((((((((((((((((hm | hm) | hm) | hm) | hm) | hm) | hm) | hm) | hm) | hm) | hm)
    | hm) | hm) | hm) | hm) | hm) | hm)
  all_goals first
    | (rw [(List.mem_replicate.mp hm).2]; exact h32)
    | (apply hb; simp only [hm, true_or, or_true])

/-- Where no byte of the header, its checksum field taken as spaces, is sign
extended (`char` is unsigned and the bytes are below 256, or `char` is signed
and the bytes are below 128), `compute_checksum` stores the checksum the
specification asks for. -/
theorem compute_checksum_eq_spec (s : Bool) (h : tar_header)
    (hlen1 : (header_bytes { h with chksum := List.replicate 8 32 }).length = 512)
    (hck : h.chksum.length = 8)
    (hb1 : ∀ b ∈ header_bytes { h with chksum := List.replicate 8 32 },
      b < (if s then 128 else 256)) :
    (compute_checksum s h).chksum = spec_chksum h := by
  have hst : store h.chksum (List.replicate 8 32) = List.replicate 8 32 :=
    store_full _ _ (by rw [hck]; simp)
  have hb256 : ∀ b ∈ header_bytes { h with chksum := List.replicate 8 32 }, b < 256 := by
    intro b hmem
    have := hb1 b hmem
    cases s <;> simp at this <;> omega
  have hsum := sum_le_of_bytes _ hb256
  rw [hlen1] at hsum
  have hbs : byte_sum s (header_bytes { h with chksum := List.replicate 8 32 }) =
      unsigned_block_sum h := by
    unfold byte_sum unsigned_block_sum
    rw [byte_sum_foldl s _ rfl _ 0 hb1, foldl_add_mod _ 0 (by omega)]
    omega
  show store (store h.chksum (List.replicate 8 32)) (snprintf 8 (fmt_octal 7 (byte_sum s
    (header_bytes { h with chksum := store h.chksum (List.replicate 8 32) })))) = _
  rw [hst, hbs]
  have h7 : (fmt_octal 7 (unsigned_block_sum h)).length = 7 :=
    fmt_octal_7_length (by unfold unsigned_block_sum; omega)
  have e : snprintf 8 (fmt_octal 7 (unsigned_block_sum h)) =
      fmt_octal 7 (unsigned_block_sum h) ++ [0] := by
    unfold snprintf
    rw [List.take_of_length_le (by omega)]
  rw [e]
  unfold spec_chksum
  apply store_full
  simp only [List.length_append, List.length_singleton, List.length_replicate, h7]

theorem spec_chksum_compute_checksum (s : Bool) (h : tar_header) :
    spec_chksum (compute_checksum s h) = spec_chksum h := by
  cases h
  rfl

/-- The checksum field of a header `fill_tar_header` produces is the one the
specification asks for whenever no byte of the header is sign extended: all
bytes below 256 with an unsigned `char`, below 128 with a signed one. -/
theorem fill_tar_header_chksum_eq_spec (env : Env) (name : List Nat) (h : tar_header)
    (hf : fill_tar_header env name = some h)
    (hb : ∀ b ∈ header_bytes h, b < (if env.signed_char then 128 else 256)) :
    h.chksum = spec_chksum h := by
  have hlen := header_bytes_length hf
  obtain ⟨st, pw, gr, -, -, -, rfl⟩ := fill_tar_header_eq_some hf
  have h32 : (32 : Nat) < (if env.signed_char then 128 else 256) := by
    cases env.signed_char <;> simp
  have hb1 := blank_bytes_small _ h32 _ hb
  rw [spec_chksum_compute_checksum]
  apply compute_checksum_eq_spec
  · simp [header_bytes, filled_header, store_length, zeros_length, REGTYPE]
  · simp [filled_header, zeros_length]
  · exact hb1

/-! ## Concrete runs -/

/-- C1, at a failing input: the archive of the empty file `a` and the file
`b` (content `hi`) of `demo_env` is created with success, and
`get_archive_file_list` returns from it the names `a` and `hi`: after the
header of `a` it steps over two blocks, past the header of `b`, and reads
the data block of `b` as a header. No amount of fuel gives `a`, `b`. -/
theorem listing_wrong_after_empty_file :
    create_archive demo_env demo_name none [[97], [98]] = some (0, some demo_ab) ∧
      get_archive_file_list 2 (some demo_ab) [] = some (0, [[97], [104, 105]]) ∧
      ∀ fuel, get_archive_file_list fuel (some demo_ab) [] ≠ some (0, [[97], [98]]) := by
  have h2 : get_archive_file_list 2 (some demo_ab) [] = some (0, [[97], [104, 105]]) := by
    decide!
  refine ⟨by decide!, h2, ?_⟩
  intro fuel h
  have a1 := get_archive_file_list_fuel_le (Nat.le_max_left fuel 2) _ _ _ h
  have a2 := get_archive_file_list_fuel_le (Nat.le_max_right fuel 2) _ _ _ h2
  rw [a1] at a2
  revert a2
  decide

/-- C3, at a failing input: for the file `c` of `demo_env` (513 letters `A`)
`copy_helper` writes two blocks, and the second is the last letter followed
by 511 letters `A` left in the buffer by the first round, not by 511 zero
bytes. -/
theorem copy_helper_stale_padding :
    copy_helper demo_c = some (demo_c ++ List.replicate 511 65) ∧
      copy_helper demo_c ≠ some (demo_c ++ zeros 511) := by
  decide!

/-- C10, at a failing input: the file `d` of `demo_env` (one byte 9) can be
opened, its header cannot be encoded (its owner is unknown), and
`create_archive` writes a data block for it all the same: the archive is
that block and the footer, 1536 bytes, where the archive of the empty list is
the footer alone. -/
theorem create_writes_data_of_unencodable_file :
    demo_env.fopen_r [100] = some [9] ∧ fill_tar_header demo_env [100] = none ∧
      create_archive demo_env demo_name none [[100]] =
        some (0, some ([9] ++ zeros 511 ++ zeros 1024)) ∧
      create_archive demo_env demo_name none [] = some (0, some (zeros 1024)) := by
  decide!

/-- C6, at a failing input: for the file of `demo_env` whose name is the two
bytes `0xc3 0xa9`, with a signed `char`, `compute_checksum` stores `0007421`
where the sum of the bytes as values `0 .. 255` is `0010421`: each of the two
bytes is counted 256 too low. -/
theorem checksum_signed_char_mismatch :
    demo_env.signed_char = true ∧
      (fill_tar_header demo_env [195, 169]).map (fun h => (h.chksum, spec_chksum h)) =
        some ([48, 48, 48, 55, 52, 50, 49, 0], [48, 48, 49, 48, 52, 50, 49, 0]) := by
  decide!

/-- C2, at a failing input: the archive of the file `c` of `demo_env` (513
letters `A`) is created with success, and `extract_files_from_archive`
returns success from it with a file `c` of 1025 bytes: the first block, then
513 bytes more (the whole second block and the first byte of the footer)
where one byte was due. No amount of fuel gives back the 513 bytes of `c`. -/
theorem extract_wrong_for_unaligned_long_file :
    create_archive demo_env demo_name none [[99]] = some (0, some demo_c_archive) ∧
      demo_env.fopen_r [99] = some demo_c ∧
      (extract_files_from_archive demo_env 2 [] (some demo_c_archive) empty_disk).map
        (fun r => (r.1, r.2 [99])) = some (0, some (List.replicate 1024 65 ++ [0])) ∧
      ∀ (fuel : Nat) (r : Int × Disk),
        extract_files_from_archive demo_env fuel [] (some demo_c_archive) empty_disk = some r →
        r.2 [99] ≠ some demo_c := by
  have h2 : (extract_files_from_archive demo_env 2 [] (some demo_c_archive) empty_disk).map
      (fun r => (r.1, r.2 [99])) = some (0, some (List.replicate 1024 65 ++ [0])) := by
    decide!
  refine ⟨by decide!, by decide!, h2, ?_⟩
  intro fuel r h hr
  cases hx : extract_files_from_archive demo_env 2 [] (some demo_c_archive) empty_disk with
  | none =>
    rw [hx] at h2
    cases h2
  | some r2 =>
    rw [hx] at h2
    have a1 := extract_files_fuel_le demo_env (Nat.le_max_left fuel 2) _ _ _ _ h
    have a2 := extract_files_fuel_le demo_env (Nat.le_max_right fuel 2) _ _ _ _ hx
    rw [a1] at a2
    have e := Option.some.inj a2
    subst e
    have h3 := (Prod.mk.inj (Option.some.inj h2)).2
    rw [hr] at h3
    revert h3
    decide!

/-- `list_round` is the body of the scan loop. -/
theorem list_loop_round (archive : List Nat) (size : Int) (fuel pos : Nat) (i : Int)
    (files : List (List Nat)) (h : (pos : Int) < size) :
    list_loop archive size (fuel + 1) pos i files =
      list_loop archive size fuel (list_round archive pos i).1 (list_round archive pos i).2.1
        (file_list_add files (list_round archive pos i).2.2) := by
  rw [list_loop, if_pos h]
  rfl

theorem list_loop_done (archive : List Nat) (size : Int) (fuel pos : Nat) (i : Int)
    (files : List (List Nat)) (h : ¬ (pos : Int) < size) :
    list_loop archive size fuel pos i files = some (0, files) := by
  cases fuel with
  | zero => rw [list_loop, if_neg h]
  | succ n => rw [list_loop, if_neg h]

/-- C11, at a failing input: on the existing archive `demo_short` of 512
bytes `remove_trailing_bytes` fails (it returns -1 and leaves the file as it
is), and `append_files_to_archive` all the same returns success, having
appended the entry of the file `a` of `demo_env` and a footer: the archive is
the old file followed by the archive `create_archive` writes for `a`. -/
theorem append_goes_on_after_failed_footer_removal :
    remove_trailing_bytes demo_env demo_name demo_short 1024 = (-1, demo_short) ∧
      append_files_to_archive demo_env demo_name (some demo_short) [[97]] =
        some (0, some (demo_short ++ demo_created)) ∧
      (demo_short ++ demo_created).length = 2048 := by
  decide!

/-- C12. Append requires an existing archive: when there is no file at the
archive path, `append_files_to_archive` returns failure for every file list
and there is no file at the path afterwards. -/
theorem append_requires_existing_archive (env : Env) (archive_name : List Nat)
    (files : List (List Nat)) :
    append_files_to_archive env archive_name none files = some (1, none) := by
  rfl

/-- C13, at a failing input: in the archive `demo_ab` the header at offset 0
(of the empty file `a`) has a size field that decodes to 0, and the round of
the scan loop on it seeks to 1024, where `0 + (ceil(0/512) + 1) * 512` is
512. -/
theorem listing_step_after_empty_file :
    decode_size (header_of_bytes (fread [] 512 demo_ab 0).1).size = 0 ∧
      list_round demo_ab 0 0 = (1024, 1024, [97]) := by
  decide!

theorem is_digit_iff (b : Nat) : is_digit b = true ↔ (48 ≤ b ∧ b ≤ 57) := by
  unfold is_digit
  exact decide_eq_true_iff

/-- The decoding loop passes over the bytes that are not digits. -/
theorem foldr_decode_step_filter (st : Int × Int) :
    ∀ l : List Nat, l.foldr decode_step st = (l.filter is_digit).foldr decode_step st := by
  intro l
  induction l with
  | nil => rfl
  | cons b l ih =>
    by_cases hb : 48 ≤ b ∧ b ≤ 57
    · rw [List.filter_cons_of_pos ((is_digit_iff b).mpr hb), List.foldr_cons, List.foldr_cons, ih]
    · have hn : ¬ (is_digit b = true) := fun h => hb ((is_digit_iff b).mp h)
      rw [List.filter_cons_of_neg hn, List.foldr_cons, decode_step_other hb, ih]

theorem digits_of_length (field : List Nat) : (digits_of field).length ≤ 12 := by
  unfold digits_of
  exact le_trans (List.length_filter_le _ _) (List.length_take_le _ _)

theorem digits_of_digits (field : List Nat) : digits_of (digits_of field) = digits_of field := by
  have h := digits_of_length field
  unfold digits_of at h ⊢
  rw [List.take_of_length_le h, List.filter_filter]
  simp

theorem decode_size_eq_wrap (field : List Nat) :
    decode_size field = wrap32 (octal_value (digits_of field)) := by
  unfold decode_size digits_of
  rw [foldr_decode_step_filter, foldr_decode_step_digits]
  intro d hd
  exact (is_digit_iff d).mp (List.mem_filter.mp hd).2

theorem octal_value_nonneg_of_digits :
    ∀ ds : List Nat, (∀ d ∈ ds, 48 ≤ d) → 0 ≤ octal_value ds := by
  intro ds
  induction ds with
  | nil => intro _; simp [octal_value]
  | cons d ds ih =>
    intro h
    rw [octal_value_cons]
    have h1 := h d (List.mem_cons_self d ds)
    have h2 := ih (fun x hx => h x (List.mem_cons_of_mem d hx))
    have h3 : (0 : Int) ≤ (d : Int) - 48 := by omega
    have h4 : (0 : Int) ≤ 8 ^ ds.length := by positivity
    have := mul_nonneg h3 h4
    omega

/-- C14, as amended. Lenient octal decoding: on every field the decoding
loop returns, reduced to a 32-bit `int`, the sum over the bytes of its first
12 that are ASCII `'0'..'9'` of `(byte - '0') * 8^k`, `k` the number of digit
bytes to the right of the byte (`octal_value` of the digits); the other
bytes neither count nor end the scan, so the result is that of the field with
them deleted; `'8'` and `'9'` count as digits; and where the sum is below
2^31 the loop returns the sum itself. -/
theorem lenient_octal_decoding (field : List Nat) :
    decode_size field = wrap32 (octal_value (digits_of field)) ∧
      decode_size field = decode_size (digits_of field) ∧
      (∀ d ∈ digits_of field, 48 ≤ d ∧ d ≤ 57) ∧
      (∀ b ∈ field.take 12, 48 ≤ b ∧ b ≤ 57 → b ∈ digits_of field) ∧
      (octal_value (digits_of field) < 2147483648 →
        decode_size field = octal_value (digits_of field)) := by
  have h1 := decode_size_eq_wrap field
  have hd : ∀ d ∈ digits_of field, 48 ≤ d ∧ d ≤ 57 := by
    intro d hd
    unfold digits_of at hd
    exact (is_digit_iff d).mp (List.mem_filter.mp hd).2
  refine ⟨h1, ?_, hd, ?_, ?_⟩
  · rw [h1, decode_size_eq_wrap (digits_of field), digits_of_digits]
  · intro b hb hr
    unfold digits_of
    exact List.mem_filter.mpr ⟨hb, (is_digit_iff b).mpr hr⟩
  · intro hlt
    rw [h1]
    have h0 := octal_value_nonneg_of_digits (digits_of field) (fun d h => (hd d h).1)
    exact wrap32_of_range (by omega) hlt

/-- C14 as stated fails: the field `37777777777` and a NUL (the size field of
a file of 2^32 - 1 bytes) has the digit sum 2^32 - 1, and the decoding loop,
whose sum is an `int`, returns -1. The field ` 8 9` with blanks shows the
lenient part: it decodes to `8 * 8 + 9`. -/
theorem lenient_octal_decoding_overflows :
    octal_value (digits_of [51, 55, 55, 55, 55, 55, 55, 55, 55, 55, 55, 0]) = 4294967295 ∧
      decode_size [51, 55, 55, 55, 55, 55, 55, 55, 55, 55, 55, 0] = -1 ∧
      decode_size [32, 32, 32, 32, 32, 32, 32, 32, 56, 32, 57, 0] = 73 := by
  decide!

/-- C20. Silent size wrap-around: whenever `stat` and the two name lookups
succeed, `fill_tar_header` succeeds whatever the size is, and the size field
is eleven ASCII octal digits, whose value is the size modulo 2^32, and a NUL;
so a file whose size is the same modulo 2^32 (with any path, metadata and
environment) gets the same size field. -/
theorem size_field_wraps (env : Env) (name : List Nat) (st : stat_t) (pw gr : List Nat)
    (hs : env.stat name = some st) (hp : env.getpwuid st.st_uid = some pw)
    (hg : env.getgrgid st.st_gid = some gr) :
    ∃ h, fill_tar_header env name = some h ∧
      h.size = fmt_octal 11 (st.st_size % 4294967296) ++ [0] ∧
      (h.size.take 11).length = 11 ∧ (∀ d ∈ h.size.take 11, 48 ≤ d ∧ d ≤ 55) ∧
      octal_value (h.size.take 11) = ((st.st_size % 4294967296 : Nat) : Int) ∧
      h.size.drop 11 = [0] ∧
      ∀ (env1 : Env) (name1 : List Nat) (st1 : stat_t) (h1 : tar_header),
        env1.stat name1 = some st1 → fill_tar_header env1 name1 = some h1 →
        st1.st_size % 4294967296 = st.st_size % 4294967296 → h1.size = h.size := by
  have hf := fill_tar_header_of hs hp hg
  refine ⟨_, hf, ?_⟩
  have he := size_field_eq hs hf
  have hmod : ∀ x : Nat, fmt_octal 11 (x % 4294967296) = fmt_octal 11 x := by
    intro x
    unfold fmt_octal
    rw [Nat.mod_mod]
  have hl := fmt_octal_length st.st_size
  rw [he]
  refine ⟨by rw [hmod], ?_, ?_, ?_, ?_, ?_⟩
  · rw [List.take_left' hl, hl]
  · rw [List.take_left' hl]
    exact fmt_octal_range 11 st.st_size
  · rw [List.take_left' hl]
    exact fmt_octal_value 11 st.st_size
  · rw [List.drop_left' hl]
  · intro env1 name1 st1 h1 hs1 hf1 hm
    rw [size_field_eq hs1 hf1, ← hmod st1.st_size, hm, hmod]

/-- C20, at a concrete input: the file `g` of `demo_env`, of 2^32 bytes. -/
theorem size_field_wraps_witness :
    ∃ h, fill_tar_header demo_env [103] = some h ∧
      h.size = fmt_octal 11 ((demo_stat 4294967296 1000).st_size % 4294967296) ++ [0] ∧
      (h.size.take 11).length = 11 ∧ (∀ d ∈ h.size.take 11, 48 ≤ d ∧ d ≤ 55) ∧
      octal_value (h.size.take 11) =
        (((demo_stat 4294967296 1000).st_size % 4294967296 : Nat) : Int) ∧
      h.size.drop 11 = [0] ∧
      ∀ (env1 : Env) (name1 : List Nat) (st1 : stat_t) (h1 : tar_header),
        env1.stat name1 = some st1 → fill_tar_header env1 name1 = some h1 →
        st1.st_size % 4294967296 = (demo_stat 4294967296 1000).st_size % 4294967296 →
        h1.size = h.size :=
  size_field_wraps demo_env [103] (demo_stat 4294967296 1000) [117] [117]
    (by decide!) (by decide!) (by decide!)

/-- The entry of a file that can be opened, has an encodable header and is
not longer than `2^31 - 512` bytes: its header block and
`ceil(size / 512)` data blocks. -/
theorem entry_bytes_small {env : Env} {name source : List Nat} {header : tar_header}
    (hs : env.fopen_r name = some source) (hh : fill_tar_header env name = some header)
    (hlen : source.length ≤ 2147483136) :
    ∃ data, copy_helper source = some data ∧
      entry_bytes env name = some (header_bytes header ++ data) ∧
      data.length = 512 * ((source.length + 511) / 512) ∧
      (header_bytes header ++ data).length = entry_length (file_size env name) := by
  obtain ⟨data, hd, hl⟩ := copy_helper_length hlen
  refine ⟨data, hd, ?_, hl, ?_⟩
  · unfold entry_bytes
    simp only [hs, hd, hh]
  · have h512 := header_bytes_length hh
    unfold entry_length file_size
    simp only [hs, List.length_append, h512, hl]
    omega

theorem entries_small {env : Env} :
    ∀ L : List (List Nat),
      (∀ f ∈ L, ∃ src h, env.fopen_r f = some src ∧ fill_tar_header env f = some h ∧
        src.length ≤ 2147483136) →
      ∃ es, entries env L = some es ∧
        es.map List.length = L.map (fun f => entry_length (file_size env f)) := by
  intro L
  induction L with
  | nil => intro _; exact ⟨[], rfl, rfl⟩
  | cons f L ih =>
    intro hL
    obtain ⟨src, h, hs, hh, hlen⟩ := hL f (List.mem_cons_self f L)
    obtain ⟨es, hes, hmap⟩ := ih (fun g hg => hL g (List.mem_cons_of_mem f hg))
    obtain ⟨data, -, he, -, hel⟩ := entry_bytes_small hs hh hlen
    refine ⟨(header_bytes h ++ data) :: es, ?_, ?_⟩
    · rw [entries]
      simp only [he, hes]
    · rw [List.map_cons, List.map_cons, hel, hmap]

theorem create_archive_of_entries {env : Env} {archive_name : List Nat}
    (old : Option (List Nat)) {L : List (List Nat)} {es : List (List Nat)}
    (hw : env.fopen_w archive_name = true) (hes : entries env L = some es) :
    create_archive env archive_name old L = some (0, some (es.flatten ++ zeros 1024)) := by
  unfold create_archive
  have h := write_loop_prefix hes [] []
  rw [List.append_nil, write_loop] at h
  rw [hw, h]
  simp only [Bool.not_true, Bool.false_eq_true, if_false, List.nil_append]

theorem append_of_entries {env : Env} {archive_name A : List Nat}
    {L : List (List Nat)} {es : List (List Nat)}
    (hw : env.fopen_w archive_name = true) (hn : 1024 ≤ A.length)
    (hes : entries env L = some es) :
    append_files_to_archive env archive_name (some A) L =
      some (0, some (A.take (A.length - 1024) ++ es.flatten ++ zeros 1024)) := by
  unfold append_files_to_archive
  have h := write_loop_prefix hes [] (A.take (A.length - 1024))
  rw [List.append_nil, write_loop] at h
  dsimp only
  rw [remove_trailing_bytes_ok hw hn]
  dsimp only
  rw [if_neg (by decide), hw, h]
  rfl

/-- C15, as amended. Entry length for files of at most `2^31 - 512` bytes:
for a list of files that can be opened, have encodable headers and are not
longer than that, every file has an entry of `512 * (1 + ceil(s / 512))`
bytes (`entry_length`), its header block followed by `ceil(s / 512)` data
blocks, which for a file of size 0 is the header block alone;
`create_archive` returns success with the entries in order and the footer,
of length 1024 plus the sum of the entry lengths; and
`append_files_to_archive` on an archive of at least 1024 bytes replaces its
last 1024 bytes by the same entries and the footer. -/
theorem entry_length_of_small_files (env : Env) (archive_name : List Nat)
    (old : Option (List Nat)) (L : List (List Nat)) (hw : env.fopen_w archive_name = true)
    (hL : ∀ f ∈ L, ∃ src h, env.fopen_r f = some src ∧ fill_tar_header env f = some h ∧
      src.length ≤ 2147483136) :
    (∀ f ∈ L, ∃ src h data, env.fopen_r f = some src ∧ fill_tar_header env f = some h ∧
      entry_bytes env f = some (header_bytes h ++ data) ∧ (header_bytes h).length = 512 ∧
      data.length = 512 * ((src.length + 511) / 512) ∧
      (header_bytes h ++ data).length = entry_length src.length ∧
      (src.length = 0 → data = [])) ∧
    ∃ es, entries env L = some es ∧
      es.map List.length = L.map (fun f => entry_length (file_size env f)) ∧
      create_archive env archive_name old L = some (0, some (es.flatten ++ zeros 1024)) ∧
      (es.flatten ++ zeros 1024).length =
        1024 + (L.map (fun f => entry_length (file_size env f))).sum ∧
      ∀ A : List Nat, 1024 ≤ A.length →
        append_files_to_archive env archive_name (some A) L =
          some (0, some (A.take (A.length - 1024) ++ es.flatten ++ zeros 1024)) := by
  constructor
  · intro f hf
    obtain ⟨src, h, hs, hh, hlen⟩ := hL f hf
    obtain ⟨data, -, he, hd, hel⟩ := entry_bytes_small hs hh hlen
    refine ⟨src, h, data, hs, hh, he, header_bytes_length hh, hd, ?_, ?_⟩
    · rw [hel]
      unfold file_size
      simp only [hs]
    · intro h0
      rw [h0] at hd
      exact List.length_eq_zero.mp (by omega)
  · obtain ⟨es, hes, hmap⟩ := entries_small L hL
    refine ⟨es, hes, hmap, create_archive_of_entries old hw hes, ?_, ?_⟩
    · rw [List.length_append, List.length_flatten, hmap, zeros_length]
      omega
    · intro A hA
      exact append_of_entries hw hA hes

/-- C15, at a concrete input: the files `a`, `b`, `c` of `demo_env`. -/
theorem entry_length_of_small_files_witness :
    (∀ f ∈ [[97], [98], [99]], ∃ src h data, demo_env.fopen_r f = some src ∧
      fill_tar_header demo_env f = some h ∧
      entry_bytes demo_env f = some (header_bytes h ++ data) ∧ (header_bytes h).length = 512 ∧
      data.length = 512 * ((src.length + 511) / 512) ∧
      (header_bytes h ++ data).length = entry_length src.length ∧
      (src.length = 0 → data = [])) ∧
    ∃ es, entries demo_env [[97], [98], [99]] = some es ∧
      es.map List.length = [[97], [98], [99]].map (fun f => entry_length (file_size demo_env f)) ∧
      create_archive demo_env demo_name none [[97], [98], [99]] =
        some (0, some (es.flatten ++ zeros 1024)) ∧
      (es.flatten ++ zeros 1024).length =
        1024 + ([[97], [98], [99]].map (fun f => entry_length (file_size demo_env f))).sum ∧
      ∀ A : List Nat, 1024 ≤ A.length →
        append_files_to_archive demo_env demo_name (some A) [[97], [98], [99]] =
          some (0, some (A.take (A.length - 1024) ++ es.flatten ++ zeros 1024)) :=
  entry_length_of_small_files demo_env demo_name none [[97], [98], [99]] (by decide!)
    (by
      intro f hf
      simp only [List.mem_cons, List.mem_singleton, List.not_mem_nil, or_false] at hf
      rcases hf with rfl | rfl | rfl
      · exact ⟨[], demo_created_header, by decide!, by decide!, by decide!⟩
      · exact ⟨[104, 105], demo_b_header, by decide!, by decide!, by decide!⟩
      · exact ⟨demo_c, demo_c_header, by decide!, by decide!, by decide!⟩)

/-- A source whose length, taken as an `int`, is not positive is not copied
at all. -/
theorem copy_helper_of_nonpos {source : List Nat}
    (h : wrap32 (source.length : Int) ≤ 0) : copy_helper source = some [] := by
  unfold copy_helper
  rw [copy_loop, if_neg (by omega)]

theorem big_file_length : big_file.length = 2147483648 := by
  unfold big_file
  exact List.length_replicate _ _

theorem copy_helper_big_file : copy_helper big_file = some [] := by
  apply copy_helper_of_nonpos
  rw [big_file_length]
  decide

theorem entry_bytes_of {env : Env} {name source data : List Nat} {header : tar_header}
    (hs : env.fopen_r name = some source) (hd : copy_helper source = some data)
    (hh : fill_tar_header env name = some header) :
    entry_bytes env name = some (header_bytes header ++ data) := by
  unfold entry_bytes
  simp only [hs, hd, hh]

theorem entries_singleton {env : Env} {name e : List Nat} (he : entry_bytes env name = some e) :
    entries env [name] = some [e] := by
  rw [entries, entries]
  simp only [he]

/-- C15 as stated fails: the file `i` of `big_env` has 2^31 bytes, can be
opened and has an encodable header; `copy_helper` takes its length as the
`int` -2^31 and writes no data block, so its entry is the header block alone
and `create_archive` returns success with an archive of 1536 bytes, where
`512 * (1 + ceil(2^31 / 512))` is 2^31 + 512. -/
theorem entry_length_fails_for_2_gib_file :
    big_env.fopen_r [105] = some big_file ∧ big_file.length = 2147483648 ∧
      fill_tar_header big_env [105] = some big_header ∧
      entry_bytes big_env [105] = some (header_bytes big_header) ∧
      create_archive big_env demo_name none [[105]] =
        some (0, some (header_bytes big_header ++ zeros 1024)) ∧
      (header_bytes big_header ++ zeros 1024).length = 1536 ∧
      entry_length 2147483648 = 2147484160 := by
  have hopen : big_env.fopen_r [105] = some big_file := rfl
  have hfill : fill_tar_header big_env [105] = some big_header := by decide!
  have hentry : entry_bytes big_env [105] = some (header_bytes big_header) := by
    rw [entry_bytes_of hopen copy_helper_big_file hfill, List.append_nil]
  have hes := entries_singleton hentry
  have hcreate : create_archive big_env demo_name none [[105]] =
      some (0, some ([header_bytes big_header].flatten ++ zeros 1024)) :=
    create_archive_of_entries none (show big_env.fopen_w demo_name = true from rfl) hes
  refine ⟨hopen, big_file_length, hfill, hentry, ?_, by decide!, by decide⟩
  rw [hcreate]
  simp only [List.flatten_cons, List.flatten_nil, List.append_nil]

/-- C17. Append composes with create: when `create_archive` on `L1` returns
success with the archive `A1`, `append_files_to_archive` of `L2` to `A1` has
the very outcome of `create_archive` on `L1 ++ L2` (return value and
archive, byte for byte); and when every file of `L2` has an entry, that
outcome is success, with the archive `A1` without its footer, the entries of
`L2` and the footer. -/
theorem append_composes_with_create (env : Env) (archive_name : List Nat)
    (old : Option (List Nat)) (L1 L2 : List (List Nat)) (A1 : List Nat)
    (h1 : create_archive env archive_name old L1 = some (0, some A1)) :
    append_files_to_archive env archive_name (some A1) L2 =
        create_archive env archive_name old (L1 ++ L2) ∧
      ∀ es2, entries env L2 = some es2 →
        create_archive env archive_name old (L1 ++ L2) =
          some (0, some (A1.take (A1.length - 1024) ++ es2.flatten ++ zeros 1024)) := by
  obtain ⟨hw, es1, hes1, hA1⟩ := create_archive_success h1
  have hlen : 1024 ≤ A1.length := by
    rw [hA1, List.length_append, zeros_length]
    omega
  have htake : A1.take (A1.length - 1024) = es1.flatten := by
    rw [hA1]
    apply List.take_left'
    rw [List.length_append, zeros_length]
    omega
  have hpre := write_loop_prefix hes1 L2 []
  rw [List.nil_append] at hpre
  constructor
  · unfold append_files_to_archive create_archive
    dsimp only
    rw [remove_trailing_bytes_ok hw hlen]
    dsimp only
    rw [if_neg (by decide), hw, htake, hpre]
    rfl
  · intro es2 hes2
    have h2 := write_loop_prefix hes2 [] es1.flatten
    rw [List.append_nil, write_loop] at h2
    unfold create_archive
    rw [hw, hpre, h2, htake]
    rfl

/-- C17, at a concrete input: the file `a` of `demo_env` archived and the
file `b` appended, against the two archived at once. -/
theorem append_composes_with_create_witness :
    append_files_to_archive demo_env demo_name (some demo_created) [[98]] =
        create_archive demo_env demo_name none ([[97]] ++ [[98]]) ∧
      ∀ es2, entries demo_env [[98]] = some es2 →
        create_archive demo_env demo_name none ([[97]] ++ [[98]]) =
          some (0, some (demo_created.take (demo_created.length - 1024) ++ es2.flatten ++
            zeros 1024)) :=
  append_composes_with_create demo_env demo_name none [[97]] [[98]] demo_created (by decide!)

theorem list_loop_loop_archive :
    ∀ (fuel : Nat) (files : List (List Nat)), list_loop loop_archive 512 fuel 0 0 files = none := by
  intro fuel
  induction fuel with
  | zero =>
    intro files
    rw [list_loop, if_pos (by decide)]
  | succ fuel ih =>
    intro files
    have hr : list_round loop_archive 0 0 = (0, 0, [120]) := by decide!
    rw [list_loop_round _ _ _ _ _ _ (by decide), hr]
    exact ih _

/-- C16 as stated fails: on the archive `loop_archive` (one header block,
whose size field `37777776000` the decoding loop takes for -1024, and the
footer) a round of the scan loop at offset 0 computes the step
`(-1024 / 512 + 2) * 512 = 0` and seeks to offset 0 again, so
`get_archive_file_list` does not return, whatever the fuel. -/
theorem listing_loops_forever :
    loop_archive.length = 1536 ∧ size_at loop_archive 0 = -1024 ∧
      list_round loop_archive 0 0 = (0, 0, [120]) ∧
      ∀ fuel, get_archive_file_list fuel (some loop_archive) [] = none := by
  refine ⟨by decide!, by decide!, by decide!, ?_⟩
  intro fuel
  have hsize : wrap32 ((loop_archive.length : Int) - 1024) = 512 := by decide!
  unfold get_archive_file_list
  dsimp only
  rw [hsize]
  exact list_loop_loop_archive fuel []

/-- The step of the scan loop when nothing overflows: from `i` to
`i + (s / 512 + 2) * 512`. -/
theorem list_step_eq {i s : Int} (hi : 0 ≤ i) (hs : 0 ≤ s)
    (hb : i + (s / 512 + 2) * 512 < 2147483648) :
    wrap32 (i + wrap32 (wrap32 (Int.tdiv s 512 + 2) * 512)) = i + (s / 512 + 2) * 512 := by
  rw [Int.tdiv_eq_ediv hs (by norm_num)]
  have h0 : 0 ≤ s / 512 := Int.ediv_nonneg hs (by norm_num)
  rw [wrap32_of_range (x := s / 512 + 2) (by omega) (by omega)]
  rw [wrap32_of_range (x := (s / 512 + 2) * 512) (by omega) (by omega)]
  exact wrap32_of_range (by omega) hb

/-- A round of the scan loop from a position where nothing overflows. -/
theorem list_round_eq (archive : List Nat) (pos : Nat) (hs : 0 ≤ size_at archive pos)
    (hb : (pos : Int) + (size_at archive pos / 512 + 2) * 512 < 2147483648) :
    list_round archive pos pos =
      (((pos : Int) + (size_at archive pos / 512 + 2) * 512).toNat,
        (pos : Int) + (size_at archive pos / 512 + 2) * 512,
        cstr (fread [] 512 archive pos).1) := by
  have h0 : 0 ≤ size_at archive pos / 512 := Int.ediv_nonneg hs (by norm_num)
  have hstep := list_step_eq (i := (pos : Int)) (by omega) hs hb
  unfold size_at at hstep hs hb h0
  unfold list_round size_at
  dsimp only
  rw [hstep]
  unfold fseek
  rw [if_neg (by omega)]

theorem le_sum_of_mem_map {α : Type} (g : α → Nat) :
    ∀ (L : List α) (f : α), f ∈ L → g f ≤ (L.map g).sum := by
  intro L
  induction L with
  | nil => intro f hf; cases hf
  | cons a L ih =>
    intro f hf
    rw [List.map_cons, List.sum_cons]
    rcases List.mem_cons.mp hf with rfl | h
    · omega
    · have := ih f h
      omega

theorem cstr_append_zero (f rest : List Nat) (hf : ∀ b ∈ f, b ≠ 0) :
    cstr (f ++ 0 :: rest) = f := by
  unfold cstr
  rw [List.takeWhile_append_of_pos (fun a ha => by simpa using hf a ha)]
  simp

theorem fill_tar_header_name {env : Env} {p : List Nat} {h : tar_header}
    (hf : fill_tar_header env p = some h) : h.name = strncpy p 100 := by
  obtain ⟨st, pw, gr, -, -, -, rfl⟩ := fill_tar_header_eq_some hf
  rw [compute_checksum_name]
  show store (zeros 100) (strncpy p 100) = strncpy p 100
  exact store_full _ _ (by rw [strncpy_length, zeros_length])

theorem header_bytes_split_name (h : tar_header) :
    header_bytes h = h.name ++ (h.mode ++ h.uid ++ h.gid ++ h.size ++ h.mtime ++ h.chksum ++
      h.typeflag ++ h.linkname ++ h.magic ++ h.version ++ h.uname ++ h.gname ++ h.devmajor ++
      h.devminor ++ h.name_pfx ++ h.padding) := by
  simp only [header_bytes, List.append_assoc]

theorem header_bytes_split_size (h : tar_header) :
    header_bytes h = (h.name ++ h.mode ++ h.uid ++ h.gid) ++ (h.size ++ (h.mtime ++ h.chksum ++
      h.typeflag ++ h.linkname ++ h.magic ++ h.version ++ h.uname ++ h.gname ++ h.devmajor ++
      h.devminor ++ h.name_pfx ++ h.padding)) := by
  simp only [header_bytes, List.append_assoc]

theorem fill_tar_header_lengths {env : Env} {p : List Nat} {h : tar_header}
    (hf : fill_tar_header env p = some h) :
    h.name.length = 100 ∧ h.mode.length = 8 ∧ h.uid.length = 8 ∧ h.gid.length = 8 ∧
      h.size.length = 12 := by
  obtain ⟨st, pw, gr, -, -, -, rfl⟩ := fill_tar_header_eq_some hf
  simp [compute_checksum, filled_header, store_length, zeros_length]

/-- The C string at the start of a header `fill_tar_header` produces for a
path of at most 99 bytes without a NUL is the path. -/
theorem cstr_header_bytes {env : Env} {p : List Nat} {h : tar_header}
    (hf : fill_tar_header env p = some h) (hlen : p.length ≤ 99) (hp : ∀ b ∈ p, b ≠ 0)
    (rest : List Nat) : cstr (header_bytes h ++ rest) = p := by
  rw [header_bytes_split_name, fill_tar_header_name hf]
  unfold strncpy
  rw [List.take_of_length_le (by omega)]
  obtain ⟨k, hk⟩ : ∃ k, 100 - p.length = k + 1 := ⟨99 - p.length, by omega⟩
  rw [hk]
  have hz : zeros (k + 1) = 0 :: zeros k := rfl
  rw [hz, List.append_assoc, List.append_assoc, List.cons_append]
  exact cstr_append_zero p _ hp

theorem header_of_bytes_size_eq (b : List Nat) :
    (header_of_bytes b).size = (b.drop 124).take 12 := rfl

/-- The size field read back from the bytes of a header `fill_tar_header`
produces. -/
theorem header_of_bytes_size {env : Env} {p : List Nat} {h : tar_header}
    (hf : fill_tar_header env p = some h) :
    (header_of_bytes (header_bytes h)).size = h.size := by
  obtain ⟨h1, h2, h3, h4, h5⟩ := fill_tar_header_lengths hf
  rw [header_of_bytes_size_eq, header_bytes_split_size]
  rw [List.drop_left' (by simp only [List.length_append]; omega)]
  exact List.take_left' h5

/-- The decoding loop on the size field of a header, for a size below
2^31. -/
theorem decode_size_header {env : Env} {p : List Nat} {h : tar_header} {st : stat_t}
    (hs : env.stat p = some st) (hf : fill_tar_header env p = some h)
    (hlt : st.st_size < 2147483648) : decode_size h.size = (st.st_size : Int) := by
  rw [size_field_eq hs hf, decode_size_fmt_octal]
  have e : st.st_size % 4294967296 = st.st_size := Nat.mod_eq_of_lt (by omega)
  rw [e]
  exact wrap32_of_range (by omega) (by omega)

theorem fread_block (A : List Nat) (pos : Nat) (block rest : List Nat)
    (hA : A.drop pos = block ++ rest) (hb : block.length = 512) :
    fread [] 512 A pos = (block, pos + 512) := by
  unfold fread
  dsimp only
  rw [hA, List.take_left' hb, hb]
  simp

/-- The scan loop on the entries of listable files: it returns their names
in order. -/
theorem list_loop_entries (env : Env) (A tail : List Nat) (size : Int)
    (hsize : size < 2147483648) :
    ∀ (L : List (List Nat)) (es : List (List Nat)) (pos : Nat) (files : List (List Nat))
      (fuel : Nat), entries env L = some es →
      (∀ f ∈ L, listable env f ∧ file_size env f ≤ 2147483136) →
      A.drop pos = es.flatten ++ tail → size = (pos : Int) + (es.flatten.length : Int) →
      L.length ≤ fuel →
      list_loop A size fuel pos pos files = some (0, files ++ L) := by
  intro L
  induction L with
  | nil =>
    intro es pos files fuel hes _ _ hsz _
    rw [entries] at hes
    cases hes
    rw [list_loop_done _ _ _ _ _ _ (by simp at hsz; omega), List.append_nil]
  | cons f L ih =>
    intro es pos files fuel hes hL hA hsz hfuel
    obtain ⟨e, es1, he, hes1, rfl⟩ := entries_cons_some hes
    obtain ⟨⟨hf1, hf99, hf0, src, st, h, hopen, hstat, hfill, hst, hmod⟩, hsmall⟩ :=
      hL f (List.mem_cons_self f L)
    have hfs : file_size env f = src.length := by
      unfold file_size
      simp only [hopen]
    rw [hfs] at hsmall
    obtain ⟨data, -, he2, hdlen, -⟩ := entry_bytes_small hopen hfill hsmall
    rw [he] at he2
    have he3 := Option.some.inj he2
    subst he3
    have h512 := header_bytes_length hfill
    rw [List.flatten_cons, List.length_append, List.length_append, h512, hdlen] at hsz
    obtain ⟨fuel1, rfl⟩ : ∃ k, fuel = k + 1 := ⟨fuel - 1, by
      simp only [List.length_cons] at hfuel; omega⟩
    have hdrop : A.drop pos = header_bytes h ++ (data ++ es1.flatten ++ tail) := by
      rw [hA, List.flatten_cons, List.append_assoc, List.append_assoc, List.append_assoc]
    have hread := fread_block A pos _ _ hdrop h512
    have hsize_at : size_at A pos = (src.length : Int) := by
      unfold size_at
      rw [hread]
      dsimp only
      rw [header_of_bytes_size hfill, decode_size_header hstat hfill (by omega), hst]
    have hceil : (src.length + 511) / 512 = src.length / 512 + 1 := by omega
    rw [hceil] at hsz hdlen
    have hround := list_round_eq A pos (by rw [hsize_at]; omega)
      (by rw [hsize_at]; push_cast at hsz; omega)
    rw [hsize_at, hread] at hround
    dsimp only at hround
    have hname : cstr (header_bytes h) = f := by
      have := cstr_header_bytes hfill hf99 hf0 []
      rwa [List.append_nil] at this
    rw [hname] at hround
    have hnext : ((pos : Int) + ((src.length : Int) / 512 + 2) * 512).toNat =
        pos + (512 + 512 * (src.length / 512 + 1)) := by omega
    have hnext2 : (pos : Int) + ((src.length : Int) / 512 + 2) * 512 =
        ((pos + (512 + 512 * (src.length / 512 + 1)) : Nat) : Int) := by
      push_cast
      omega
    rw [hnext, hnext2] at hround
    rw [list_loop_round _ _ _ _ _ _ (by omega), hround]
    dsimp only
    have hA2 : A.drop (pos + (512 + 512 * (src.length / 512 + 1))) = es1.flatten ++ tail := by
      rw [← List.drop_drop, hA, List.flatten_cons, List.append_assoc]
      exact List.drop_left' (by rw [List.length_append, h512, hdlen])
    have := ih es1 (pos + (512 + 512 * (src.length / 512 + 1))) (file_list_add files f) fuel1
      hes1 (fun g hg => hL g (List.mem_cons_of_mem f hg)) hA2 (by push_cast at hsz ⊢; omega)
      (by simp only [List.length_cons] at hfuel; omega)
    rw [this]
    unfold file_list_add
    rw [List.append_assoc, List.singleton_append]

/-- C18, as amended. Listing round trip on its sound domain: for a list of
files with paths of 1 to 99 bytes, that can be opened, have encodable
headers and sizes that are not multiples of 512, whose entries total less
than 2^31 bytes, `create_archive` returns success and
`get_archive_file_list` on the archive returns success (with fuel for one
round by file) and adds exactly the names of the list, in order. -/
theorem listing_round_trip (env : Env) (archive_name : List Nat) (old : Option (List Nat))
    (L : List (List Nat)) (files : List (List Nat)) (hw : env.fopen_w archive_name = true)
    (hL : ∀ f ∈ L, listable env f)
    (htotal : (L.map (fun f => entry_length (file_size env f))).sum < 2147483648) :
    ∃ A, create_archive env archive_name old L = some (0, some A) ∧
      ∀ fuel, L.length ≤ fuel →
        get_archive_file_list fuel (some A) files = some (0, files ++ L) := by
  have hsmall : ∀ f ∈ L, file_size env f ≤ 2147483136 := by
    intro f hf
    have := le_sum_of_mem_map (fun f => entry_length (file_size env f)) L f hf
    dsimp only at this
    have e : entry_length (file_size env f) = 512 * (1 + (file_size env f + 511) / 512) := rfl
    rw [e] at this
    omega
  have hL2 : ∀ f ∈ L, ∃ src h, env.fopen_r f = some src ∧ fill_tar_header env f = some h ∧
      src.length ≤ 2147483136 := by
    intro f hf
    obtain ⟨-, -, -, src, st, h, hopen, -, hfill, -, -⟩ := hL f hf
    have hs := hsmall f hf
    unfold file_size at hs
    simp only [hopen] at hs
    exact ⟨src, h, hopen, hfill, hs⟩
  obtain ⟨es, hes, hmap⟩ := entries_small L hL2
  refine ⟨es.flatten ++ zeros 1024, create_archive_of_entries old hw hes, ?_⟩
  intro fuel hfuel
  have hflat : es.flatten.length = (L.map (fun f => entry_length (file_size env f))).sum := by
    rw [List.length_flatten, hmap]
  have hsz : wrap32 (((es.flatten ++ zeros 1024).length : Int) - 1024) =
      (es.flatten.length : Int) := by
    rw [List.length_append, zeros_length]
    push_cast
    have e : (es.flatten.length : Int) + 1024 - 1024 = (es.flatten.length : Int) := by omega
    rw [e]
    exact wrap32_of_range (by omega) (by omega)
  unfold get_archive_file_list
  dsimp only
  rw [hsz]
  exact list_loop_entries env _ (zeros 1024) _ (by omega) L es 0 files fuel hes
    (fun f hf => ⟨hL f hf, hsmall f hf⟩) (by rw [List.drop_zero]) (by simp) hfuel

theorem file_size_of_open {env : Env} {name src : List Nat} (h : env.fopen_r name = some src) :
    file_size env name = src.length := by
  unfold file_size
  simp only [h]

theorem big2_file_length : big2_file.length = 2147483135 := by
  unfold big2_file
  exact List.length_replicate _ _

/-- C18 as stated fails: the file `j` of `big2_env` has a path of one byte,
can be opened, has an encodable header and a size of 2^31 - 513 bytes, which
is below 2^31 and not a multiple of 512; `create_archive` returns success
with an archive of 2^31 + 1024 bytes, and `get_archive_file_list`, which
takes the content length 2^31 as the `int` -2^31, returns success without
any name. -/
theorem listing_round_trip_fails_for_2_gib_archive :
    listable big2_env [106] ∧ file_size big2_env [106] = 2147483135 ∧
      ∃ A, create_archive big2_env demo_name none [[106]] = some (0, some A) ∧
        A.length = 2147484672 ∧
        ∀ fuel, get_archive_file_list fuel (some A) [] = some (0, []) := by
  have hopen : big2_env.fopen_r [106] = some big2_file := rfl
  have hstat : big2_env.stat [106] = some (demo_stat 2147483135 1000) := rfl
  have hfill : fill_tar_header big2_env [106] = some big2_header := by decide!
  have hsize := file_size_of_open hopen
  rw [big2_file_length] at hsize
  refine ⟨⟨by decide, by decide, by decide, big2_file, _, _, hopen, hstat, hfill, ?_, ?_⟩,
    hsize, ?_⟩
  · rw [big2_file_length]
    rfl
  · rw [big2_file_length]
    decide
  · have hL2 : ∀ f ∈ [[106]], ∃ src h, big2_env.fopen_r f = some src ∧
        fill_tar_header big2_env f = some h ∧ src.length ≤ 2147483136 := by
      intro f hf
      rw [List.mem_singleton] at hf
      subst hf
      exact ⟨big2_file, big2_header, hopen, hfill, by rw [big2_file_length]; decide⟩
    obtain ⟨es, hes, hmap⟩ := entries_small [[106]] hL2
    have hflat : es.flatten.length = 2147483648 := by
      rw [List.length_flatten, hmap]
      simp only [List.map_cons, List.map_nil, hsize, List.sum_cons, List.sum_nil]
      decide
    have hAlen : (es.flatten ++ zeros 1024).length = 2147484672 := by
      rw [List.length_append, hflat, zeros_length]
    refine ⟨es.flatten ++ zeros 1024,
      create_archive_of_entries none (show big2_env.fopen_w demo_name = true from rfl) hes,
      hAlen, ?_⟩
    intro fuel
    unfold get_archive_file_list
    dsimp only
    rw [hAlen]
    have hw : wrap32 (((2147484672 : Nat) : Int) - 1024) = -2147483648 := by decide
    rw [hw]
    exact list_loop_done _ _ _ _ _ _ (by decide)

/-- C18, at a concrete input: the files `b` and `c` of `demo_env`. -/
theorem listing_round_trip_witness :
    ∃ A, create_archive demo_env demo_name none [[98], [99]] = some (0, some A) ∧
      ∀ fuel, [[98], [99]].length ≤ fuel →
        get_archive_file_list fuel (some A) [] = some (0, [] ++ [[98], [99]]) :=
  listing_round_trip demo_env demo_name none [[98], [99]] [] (by decide!)
    (by
      intro f hf
      simp only [List.mem_cons, List.mem_singleton, List.not_mem_nil, or_false] at hf
      rcases hf with rfl | rfl
      · exact ⟨by decide, by decide, by decide, [104, 105], demo_stat 2 1000, demo_b_header,
          by decide!, by decide!, by decide!, by decide!, by decide!⟩
      · exact ⟨by decide, by decide, by decide, demo_c, demo_stat 513 1000, demo_c_header,
          by decide!, by decide!, by decide!, by decide!, by decide!⟩)
    (by decide!)

theorem to_size_t_of_nat (n : Nat) (h : n < 18446744073709551616) :
    to_size_t (n : Int) = n := by
  unfold to_size_t
  omega

theorem fseek_forward (p k : Nat) : fseek p ((p : Int) + (k : Int)) = p + k := by
  unfold fseek
  rw [if_neg (by omega)]
  omega

/-- A read of the bytes `mid` that lie `pre.length` bytes behind `pos`. -/
theorem fread_mid (buffer A : List Nat) (pos : Nat) (pre mid post : List Nat)
    (hA : A.drop pos = pre ++ mid ++ post) :
    fread buffer mid.length A (pos + pre.length) =
      (mid ++ buffer.drop mid.length, pos + pre.length + mid.length) := by
  have hd : A.drop (pos + pre.length) = mid ++ post := by
    rw [← List.drop_drop, hA, List.append_assoc]
    exact List.drop_left' rfl
  unfold fread
  dsimp only
  rw [hd, List.take_left' rfl]

theorem take_append_drop_add (l : List Nat) (a n : Nat) :
    (l.drop a).take n ++ l.drop (a + n) = l.drop a := by
  rw [← List.drop_drop]
  exact List.take_append_drop n (l.drop a)

/-- The copy loop on a source whose length is a multiple of 512 and at most
`2^31 - 512`: from the block `k` on it writes the rest of the source. -/
theorem copy_loop_aligned (source : List Nat) (n : Nat) (hlen : source.length = 512 * n)
    (hn : 512 * n ≤ 2147483136) :
    ∀ (fuel k : Nat) (buffer : List Nat), buffer.length = 512 → k ≤ n → n - k ≤ fuel →
      copy_loop source ((512 * n : Nat) : Int) fuel ((512 * k : Nat) : Int) buffer (512 * k) =
        some (source.drop (512 * k)) := by
  intro fuel
  induction fuel with
  | zero =>
    intro k buffer _ hk hf
    have hkn : k = n := by omega
    subst hkn
    rw [copy_loop, if_neg (by omega), List.drop_of_length_le (by omega)]
  | succ fuel ih =>
    intro k buffer hb hk hf
    rw [copy_loop]
    by_cases hlt : k < n
    · rw [if_pos (by push_cast; omega)]
      dsimp only
      have hcb : wrap32 (((512 * n : Nat) : Int) - ((512 * k : Nat) : Int)) ≥ 512 := by
        rw [wrap32_of_range (by push_cast; omega) (by push_cast; omega)]
        push_cast
        omega
      rw [if_pos hcb]
      have h512 : to_size_t 512 = 512 := by decide
      rw [h512]
      have hblk : ((source.drop (512 * k)).take 512).length = 512 := by
        rw [List.length_take, List.length_drop]
        omega
      have hread : fread buffer 512 source (512 * k) =
          ((source.drop (512 * k)).take 512, 512 * k + 512) := by
        have hbd : buffer.drop 512 = [] := List.drop_of_length_le (by omega)
        unfold fread
        dsimp only
        rw [hblk, hbd, List.append_nil]
      rw [hread]
      dsimp only
      have hi : wrap32 (((512 * k : Nat) : Int) + 512) = ((512 * (k + 1) : Nat) : Int) := by
        rw [wrap32_of_range (by push_cast; omega) (by push_cast; omega)]
        push_cast
        omega
      have hp : 512 * k + 512 = 512 * (k + 1) := by omega
      rw [hi, hp, ih (k + 1) _ hblk (by omega) (by omega)]
      dsimp only
      rw [List.take_of_length_le (by omega), ← hp, take_append_drop_add]
    · have hkn : k = n := by omega
      subst hkn
      rw [if_neg (by omega), List.drop_of_length_le (by omega)]

/-- A file whose size is a multiple of 512 (at most `2^31 - 512`) is copied
as it is. -/
theorem copy_helper_aligned {source : List Nat} (hmod : source.length % 512 = 0)
    (hlen : source.length ≤ 2147483136) : copy_helper source = some source := by
  obtain ⟨n, hn⟩ : ∃ n, source.length = 512 * n := ⟨source.length / 512, by omega⟩
  have hw : wrap32 (source.length : Int) = ((512 * n : Nat) : Int) := by
    rw [wrap32_of_range (by omega) (by omega), hn]
  unfold copy_helper
  rw [hw]
  have h := copy_loop_aligned source n hn (by omega) (source.length / 512 + 1) 0 (zeros 512)
    (zeros_length 512) (by omega) (by omega)
  simp only [Nat.mul_zero, List.drop_zero] at h
  exact h

/-- A file of less than 512 bytes (and more than 0) is copied as one block,
zero filled. -/
theorem copy_helper_short {source : List Nat} (h0 : 0 < source.length)
    (hlt : source.length < 512) :
    copy_helper source = some (source ++ zeros (512 - source.length)) := by
  have hw : wrap32 (source.length : Int) = (source.length : Int) :=
    wrap32_of_range (by omega) (by omega)
  have hfuel : source.length / 512 = 0 := Nat.div_eq_of_lt hlt
  unfold copy_helper
  rw [hw, hfuel, copy_loop, if_pos (by omega)]
  dsimp only
  have hcb : wrap32 ((source.length : Int) - 0) = (source.length : Int) := by
    rw [Int.sub_zero]
    exact hw
  rw [hcb, if_neg (by omega), to_size_t_of_nat _ (by omega)]
  have hread : fread (zeros 512) source.length source 0 =
      (source ++ zeros (512 - source.length), source.length) := by
    unfold fread
    dsimp only
    rw [List.drop_zero, List.take_of_length_le (le_refl _)]
    unfold zeros
    rw [List.drop_replicate, Nat.zero_add]
  rw [hread]
  dsimp only
  have hi : wrap32 ((0 : Int) + 512) = 512 := by decide
  rw [hi, copy_loop, if_neg (by omega)]
  dsimp only
  rw [List.take_of_length_le (by rw [List.length_append, zeros_length]; omega), List.append_nil]

/-- The loop that copies full blocks, on `n` blocks `X` that lie at `p`. -/
theorem extract_blocks_read (A : List Nat) :
    ∀ (n : Nat) (buffer : List Nat) (p : Nat) (out X rest : List Nat),
      A.drop p = X ++ rest → X.length = 512 * n → 512 ≤ buffer.length →
      ∃ B, 512 ≤ B.length ∧
        extract_blocks A n buffer p out = some (B, p + 512 * n, out ++ X) := by
  intro n
  induction n with
  | zero =>
    intro buffer p out X rest _ hX hb
    have : X = [] := List.length_eq_zero.mp (by omega)
    subst this
    exact ⟨buffer, hb, by rw [extract_blocks, List.append_nil]; rfl⟩
  | succ n ih =>
    intro buffer p out X rest hA hX hb
    have hsplit : X = X.take 512 ++ X.drop 512 := (List.take_append_drop 512 X).symm
    have htl : (X.take 512).length = 512 := by
      rw [List.length_take]
      omega
    have hA2 : A.drop p = [] ++ X.take 512 ++ (X.drop 512 ++ rest) := by
      rw [hA, List.nil_append, ← List.append_assoc, List.take_append_drop]
    have hread := fread_mid buffer A p [] (X.take 512) (X.drop 512 ++ rest) hA2
    rw [htl, List.length_nil, Nat.add_zero] at hread
    have hA3 : A.drop (p + 512) = X.drop 512 ++ rest := by
      rw [← List.drop_drop, hA]
      rw [List.drop_append_of_le_length (by omega)]
    have hlen2 : 512 ≤ (X.take 512 ++ buffer.drop 512).length := by
      rw [List.length_append, htl]
      omega
    obtain ⟨B, hB, hrec⟩ := ih (X.take 512 ++ buffer.drop 512) (p + 512) (out ++ X.take 512)
      (X.drop 512) rest hA3 (by rw [List.length_drop]; omega) hlen2
    refine ⟨B, hB, ?_⟩
    rw [extract_blocks, hread]
    dsimp only
    have hw : fwrite (X.take 512 ++ buffer.drop 512) 512 = some (X.take 512) := by
      unfold fwrite
      rw [if_pos hlen2, List.take_left' htl]
    rw [hw]
    dsimp only
    rw [hrec, List.append_assoc, List.take_append_drop]
    have e : p + 512 + 512 * n = p + 512 * (n + 1) := by omega
    rw [e]

theorem tmod_tdiv_nat (n : Nat) (hn : n < 2147483648) :
    wrap32 (Int.tmod (n : Int) 512) = ((n % 512 : Nat) : Int) ∧
      wrap32 (Int.tdiv (n : Int) 512) = ((n / 512 : Nat) : Int) := by
  rw [Int.tmod_eq_emod (by omega) (by norm_num), Int.tdiv_eq_ediv (by omega) (by norm_num)]
  constructor
  · rw [wrap32_of_range (by omega) (by omega)]
    omega
  · rw [wrap32_of_range (by omega) (by omega)]
    omega

/-- The name field at the start of a buffer reads back as the path. -/
theorem cstr_name_field (p rest : List Nat) (hlen : p.length ≤ 99) (hp : ∀ b ∈ p, b ≠ 0) :
    cstr (strncpy p 100 ++ rest) = p := by
  unfold strncpy
  rw [List.take_of_length_le (by omega)]
  obtain ⟨k, hk⟩ : ∃ k, 100 - p.length = k + 1 := ⟨99 - p.length, by omega⟩
  rw [hk]
  have hz : zeros (k + 1) = 0 :: zeros k := rfl
  rw [hz, List.append_assoc, List.cons_append]
  exact cstr_append_zero p _ hp

/-- One round of the extraction loop on the entry of a file whose size is
below 512 or a multiple of 512 below 2^31: the file is written with the bytes
of its source, and the next read of 100 bytes is at the end of the entry. -/
theorem extract_loop_entry (env : Env) (A : List Nat) {f src data : List Nat} {st : stat_t}
    {h : tar_header} (hlen1 : 1 ≤ f.length) (hlen : f.length ≤ 99) (hnz : ∀ b ∈ f, b ≠ 0)
    (hwf : env.fopen_w f = true) (hs : env.stat f = some st)
    (hf : fill_tar_header env f = some h) (hst : st.st_size = src.length)
    (hsz : src.length < 512 ∨ (src.length % 512 = 0 ∧ src.length < 2147483648))
    (hd : copy_helper src = some data) (pos : Nat) (rest buffer : List Nat)
    (hA : A.drop pos = header_bytes h ++ data ++ rest) (hb : 512 ≤ buffer.length) :
    ∃ B, 512 ≤ B.length ∧ ∀ (fuel : Nat) (disk : Disk),
      extract_loop env A (fuel + 1) (fread buffer 100 A pos).1 (fread buffer 100 A pos).2 disk =
        extract_loop env A fuel (fread B 100 A (pos + (512 + data.length))).1
          (fread B 100 A (pos + (512 + data.length))).2 (disk.write f src) := by
  obtain ⟨hn100, hm8, hu8, hg8, hs12⟩ := fill_tar_header_lengths hf
  have hhl : (header_bytes h).length = 512 := header_bytes_length hf
  have hA1 : A.drop pos = [] ++ h.name ++ ((h.mode ++ h.uid ++ h.gid ++ h.size ++ h.mtime ++
      h.chksum ++ h.typeflag ++ h.linkname ++ h.magic ++ h.version ++ h.uname ++ h.gname ++
      h.devmajor ++ h.devminor ++ h.name_pfx ++ h.padding) ++ (data ++ rest)) := by
    rw [hA, header_bytes_split_name]
    simp only [List.nil_append, List.append_assoc]
  have hread1 := fread_mid buffer A pos [] h.name _ hA1
  rw [hn100, List.length_nil, Nat.add_zero] at hread1
  obtain ⟨c, b0, hcons, hc⟩ : ∃ c b0, h.name ++ buffer.drop 100 = c :: b0 ∧ c ≠ 0 := by
    rw [fill_tar_header_name hf]
    cases f with
    | nil => simp at hlen1
    | cons c f1 =>
      refine ⟨c, f1 ++ zeros (100 - (c :: f1).length) ++ buffer.drop 100, ?_,
        hnz c (List.mem_cons_self _ _)⟩
      unfold strncpy
      rw [List.take_of_length_le (by omega), List.cons_append, List.cons_append]
  have hcstr : cstr (c :: b0) = f := by
    rw [← hcons, fill_tar_header_name hf]
    exact cstr_name_field f _ hlen hnz
  have hl0 : (c :: b0).length = buffer.length := by
    rw [← hcons, List.length_append, hn100, List.length_drop]
    omega
  have hb1 : 512 ≤ (zeros 512 ++ (c :: b0).drop 512).length := by
    rw [List.length_append, zeros_length]
    omega
  have hA2 : A.drop pos = (h.name ++ h.mode ++ h.uid ++ h.gid) ++ h.size ++ ((h.mtime ++
      h.chksum ++ h.typeflag ++ h.linkname ++ h.magic ++ h.version ++ h.uname ++ h.gname ++
      h.devmajor ++ h.devminor ++ h.name_pfx ++ h.padding) ++ (data ++ rest)) := by
    rw [hA, header_bytes_split_size]
    simp only [List.append_assoc]
  have hread2 := fread_mid (zeros 512 ++ (c :: b0).drop 512) A pos
    (h.name ++ h.mode ++ h.uid ++ h.gid) h.size _ hA2
  have hpre : (h.name ++ h.mode ++ h.uid ++ h.gid).length = 124 := by
    simp only [List.length_append]
    omega
  rw [hpre, hs12] at hread2
  have hb2 : 512 ≤ (h.size ++ (zeros 512 ++ (c :: b0).drop 512).drop 12).length := by
    rw [List.length_append, List.length_drop, hs12]
    omega
  have hdec : decode_size (h.size ++ (zeros 512 ++ (c :: b0).drop 512).drop 12) =
      (src.length : Int) := by
    have e : decode_size (h.size ++ (zeros 512 ++ (c :: b0).drop 512).drop 12) =
        decode_size h.size := by
      unfold decode_size
      rw [List.take_left' hs12, List.take_of_length_le (by omega)]
    rw [e, decode_size_header hs hf (by omega), hst]
  obtain ⟨hmod, hdiv⟩ := tmod_tdiv_nat src.length (by omega)
  have hA3 : A.drop (pos + 512) = data ++ rest := by
    rw [← List.drop_drop, hA, List.append_assoc, List.drop_left' hhl]
  have hseek1 : fseek (pos + 100) (((pos + 100 : Nat) : Int) + 24) = pos + 124 := by
    unfold fseek
    rw [if_neg (by omega)]
    omega
  have hseek2 : fseek (pos + 124 + 12) (((pos + 124 + 12 : Nat) : Int) + 376) = pos + 512 := by
    unfold fseek
    rw [if_neg (by omega)]
    omega
  have hnl : ¬ f.length = (c :: b0).length := by
    rw [hl0]
    omega
  have hcases : (src.length % 512 = 0 ∧ src.length < 2147483648) ∨
      (0 < src.length ∧ src.length < 512) := by omega
  rcases hcases with ⟨hal, hlt⟩ | ⟨hpos, hshort⟩
  · have hdata : data = src := by
      rw [copy_helper_aligned hal (by omega)] at hd
      exact (Option.some.inj hd).symm
    subst hdata
    obtain ⟨B, hB, hblocks⟩ := extract_blocks_read A (data.length / 512)
      (h.size ++ (zeros 512 ++ (c :: b0).drop 512).drop 12) (pos + 512) [] data rest hA3
      (by omega) hb2
    refine ⟨B, hB, ?_⟩
    intro fuel disk
    rw [hread1]
    dsimp only
    rw [hcons, extract_loop]
    dsimp only
    rw [if_pos hc, hcstr, if_neg hnl, hwf]
    simp only [Bool.not_true, Bool.false_eq_true, if_false]
    rw [hseek1, hread2]
    dsimp only
    rw [hdec, hseek2, hmod, hdiv, Int.toNat_ofNat, hblocks]
    dsimp only
    rw [hal, if_neg (by simp), List.nil_append]
    have e : pos + 512 + 512 * (data.length / 512) = pos + (512 + data.length) := by omega
    rw [e]
  · have hdata : data = src ++ zeros (512 - src.length) := by
      rw [copy_helper_short hpos hshort] at hd
      exact (Option.some.inj hd).symm
    subst hdata
    have hA4 : A.drop (pos + 512) = [] ++ src ++ (zeros (512 - src.length) ++ rest) := by
      rw [hA3, List.nil_append, List.append_assoc]
    have hread3 := fread_mid (h.size ++ (zeros 512 ++ (c :: b0).drop 512).drop 12) A (pos + 512)
      [] src _ hA4
    rw [List.length_nil, Nat.add_zero] at hread3
    have hdiv0 : src.length / 512 = 0 := Nat.div_eq_of_lt hshort
    have hmod0 : src.length % 512 = src.length := Nat.mod_eq_of_lt hshort
    have hb3 : 512 ≤ (src ++
        (h.size ++ (zeros 512 ++ (c :: b0).drop 512).drop 12).drop src.length).length := by
      rw [List.length_append, List.length_drop]
      omega
    have hw : fwrite (src ++
        (h.size ++ (zeros 512 ++ (c :: b0).drop 512).drop 12).drop src.length) src.length =
          some src := by
      unfold fwrite
      rw [if_pos (by omega), List.take_left' rfl]
    have hwr : wrap32 (512 - ((src.length : Nat) : Int)) = ((512 - src.length : Nat) : Int) := by
      rw [wrap32_of_range (by omega) (by omega)]
      omega
    have hseek3 : fseek (pos + 512 + src.length)
        (((pos + 512 + src.length : Nat) : Int) + ((512 - src.length : Nat) : Int)) =
          pos + 1024 := by
      rw [fseek_forward]
      omega
    refine ⟨zeros 512 ++ (src ++
      (h.size ++ (zeros 512 ++ (c :: b0).drop 512).drop 12).drop src.length).drop 512, ?_, ?_⟩
    · rw [List.length_append, zeros_length]
      omega
    intro fuel disk
    rw [hread1]
    dsimp only
    rw [hcons, extract_loop]
    dsimp only
    rw [if_pos hc, hcstr, if_neg hnl, hwf]
    simp only [Bool.not_true, Bool.false_eq_true, if_false]
    rw [hseek1, hread2]
    dsimp only
    rw [hdec, hseek2, hmod, hdiv, Int.toNat_ofNat, hdiv0, hmod0, extract_blocks]
    dsimp only
    rw [if_pos (by omega), to_size_t_of_nat _ (by omega), hread3]
    dsimp only
    rw [hw]
    dsimp only
    rw [hwr, hseek3, List.nil_append]
    have e : pos + (512 + (src ++ zeros (512 - src.length)).length) = pos + 1024 := by
      rw [List.length_append, zeros_length]
      omega
    rw [e]

theorem extracted_other (env : Env) :
    ∀ (L : List (List Nat)) (disk : Disk) (p : List Nat), p ∉ L →
      extracted env disk L p = disk p := by
  intro L
  induction L with
  | nil => intro disk p _; rfl
  | cons f L ih =>
    intro disk p hp
    rw [extracted, ih _ p (fun h => hp (List.mem_cons_of_mem f h))]
    unfold Disk.write
    have hne : ¬ p = f := by
      intro h
      subst h
      exact hp (List.mem_cons_self p L)
    rw [if_neg hne]

theorem extracted_mem (env : Env) :
    ∀ (L : List (List Nat)) (disk : Disk), (∀ f ∈ L, ∃ src, env.fopen_r f = some src) →
      ∀ f ∈ L, extracted env disk L f = env.fopen_r f := by
  intro L
  induction L with
  | nil => intro disk _ f hf; cases hf
  | cons g L ih =>
    intro disk hL f hf
    rw [extracted]
    by_cases hmem : f ∈ L
    · exact ih _ (fun x hx => hL x (List.mem_cons_of_mem g hx)) f hmem
    · have hfg : f = g := by
        rcases List.mem_cons.mp hf with h | h
        · exact h
        · exact absurd h hmem
      subst hfg
      obtain ⟨src, hsrc⟩ := hL f (List.mem_cons_self f L)
      rw [extracted_other env L _ f hmem, hsrc]
      unfold Disk.write
      rw [if_pos rfl]
      rfl

/-- The entry of a file that extraction restores. -/
theorem entry_bytes_extractable {env : Env} {f : List Nat} (hx : extractable env f) :
    ∃ src st h data, env.fopen_r f = some src ∧ env.stat f = some st ∧
      fill_tar_header env f = some h ∧ st.st_size = src.length ∧
      copy_helper src = some data ∧ entry_bytes env f = some (header_bytes h ++ data) := by
  obtain ⟨-, -, -, -, src, st, h, hopen, hstat, hfill, hst, hsz⟩ := hx
  have hlen : src.length ≤ 2147483136 := by omega
  obtain ⟨data, hd, he, -, -⟩ := entry_bytes_small hopen hfill hlen
  exact ⟨src, st, h, data, hopen, hstat, hfill, hst, hd, he⟩

theorem entries_append (env : Env) :
    ∀ (pre post : List (List Nat)) (es : List (List Nat)),
      entries env (pre ++ post) = some es →
      ∃ es1 es2, entries env pre = some es1 ∧ entries env post = some es2 ∧
        es = es1 ++ es2 := by
  intro pre
  induction pre with
  | nil => intro post es h; exact ⟨[], es, rfl, h, rfl⟩
  | cons f pre ih =>
    intro post es h
    rw [List.cons_append] at h
    obtain ⟨e, es0, he, hes0, rfl⟩ := entries_cons_some h
    obtain ⟨es1, es2, h1, h2, rfl⟩ := ih post es0 hes0
    refine ⟨e :: es1, es2, ?_, h2, rfl⟩
    rw [entries]
    simp only [he, h1]

/-- The extraction loop stops with success on a buffer that starts with a
zero byte. -/
theorem extract_loop_footer (env : Env) (A : List Nat) (fuel : Nat) (b : List Nat) (pos : Nat)
    (disk : Disk) : extract_loop env A fuel (0 :: b) pos disk = some (0, disk) := by
  cases fuel with
  | zero => rw [extract_loop]; simp
  | succ n => rw [extract_loop]; simp

/-- The read of 100 bytes at a footer gives a buffer that starts with a zero
byte. -/
theorem fread_footer (A B : List Nat) (pos : Nat) (hA : A.drop pos = zeros 1024) :
    ∃ b, (fread B 100 A pos).1 = 0 :: b := by
  have hA1 : A.drop pos = [] ++ zeros 100 ++ zeros 924 := by
    rw [hA]
    decide!
  have h := fread_mid B A pos [] (zeros 100) (zeros 924) hA1
  rw [zeros_length, List.length_nil, Nat.add_zero] at h
  rw [h]
  exact ⟨zeros 99 ++ B.drop 100, rfl⟩

/-- The extraction loop over the entries of a list of files that extraction
restores: after one round by file the files are written and the next read is
at the end of the entries. -/
theorem extract_loop_entries (env : Env) (A tail : List Nat) :
    ∀ (L : List (List Nat)) (es : List (List Nat)) (pos : Nat) (buffer : List Nat),
      entries env L = some es → (∀ f ∈ L, extractable env f) →
      A.drop pos = es.flatten ++ tail → 512 ≤ buffer.length →
      ∃ B, 512 ≤ B.length ∧ ∀ (fuel : Nat) (disk : Disk),
        extract_loop env A (fuel + L.length) (fread buffer 100 A pos).1
            (fread buffer 100 A pos).2 disk =
          extract_loop env A fuel (fread B 100 A (pos + es.flatten.length)).1
            (fread B 100 A (pos + es.flatten.length)).2 (extracted env disk L) := by
  intro L
  induction L with
  | nil =>
    intro es pos buffer hes _ _ hb
    have he : es = [] := by
      rw [entries] at hes
      exact (Option.some.inj hes).symm
    subst he
    exact ⟨buffer, hb, fun fuel disk => rfl⟩
  | cons f L ih =>
    intro es pos buffer hes hL hA hb
    obtain ⟨e, es1, he, hes1, rfl⟩ := entries_cons_some hes
    have hx := hL f (List.mem_cons_self f L)
    obtain ⟨src, st, h, data, hopen, hstat, hfill, hst, hd, he2⟩ := entry_bytes_extractable hx
    obtain ⟨hlen1, hlen, hnz, hwf, src2, -, -, hopen2, -, -, -, hsz⟩ := hx
    rw [hopen] at hopen2
    have hsrc := Option.some.inj hopen2
    subst hsrc
    rw [he] at he2
    have hee := Option.some.inj he2
    subst hee
    have hA1 : A.drop pos = header_bytes h ++ data ++ (es1.flatten ++ tail) := by
      rw [hA, List.flatten_cons, List.append_assoc]
    obtain ⟨B1, hB1, hround⟩ := extract_loop_entry env A hlen1 hlen hnz hwf hstat hfill hst hsz hd
      pos (es1.flatten ++ tail) buffer hA1 hb
    have hhl : (header_bytes h).length = 512 := header_bytes_length hfill
    have hA2 : A.drop (pos + (512 + data.length)) = es1.flatten ++ tail := by
      rw [← List.drop_drop, hA1]
      exact List.drop_left' (by rw [List.length_append, hhl])
    obtain ⟨B, hB, hrest⟩ := ih es1 (pos + (512 + data.length)) B1 hes1
      (fun g hg => hL g (List.mem_cons_of_mem f hg)) hA2 hB1
    refine ⟨B, hB, ?_⟩
    intro fuel disk
    have hfuel : fuel + (f :: L).length = (fuel + L.length) + 1 := by
      rw [List.length_cons]
      omega
    have hoff : pos + ((header_bytes h ++ data) :: es1).flatten.length =
        pos + (512 + data.length) + es1.flatten.length := by
      rw [List.flatten_cons, List.length_append, List.length_append, hhl]
      omega
    rw [hfuel, hround, hrest, hoff, extracted, hopen]
    rfl

/-- The entries of a list of files that extraction restores exist. -/
theorem entries_extractable {env : Env} (L : List (List Nat))
    (hL : ∀ f ∈ L, extractable env f) : ∃ es, entries env L = some es := by
  have hL2 : ∀ f ∈ L, ∃ src h, env.fopen_r f = some src ∧ fill_tar_header env f = some h ∧
      src.length ≤ 2147483136 := by
    intro f hf
    obtain ⟨-, -, -, -, src, st, h, hopen, -, hfill, -, hsz⟩ := hL f hf
    exact ⟨src, h, hopen, hfill, by omega⟩
  obtain ⟨es, hes, -⟩ := entries_small L hL2
  exact ⟨es, hes⟩

/-- C19: for every list `L` of files that can be opened and encoded, with
paths of 1 to 99 bytes and sizes `s` with `s < 512`, or `s % 512 = 0` and
`s < 2^31` (and whose paths can be opened for writing), `create_archive`
returns success with an archive `A`, and `extract_files_from_archive` on `A`
(with fuel for one round by file) returns success; afterwards every file of
`L` holds exactly its original bytes and no other path was touched. After
the entries of any initial part `pre` of `L` the loop is about to read the
100 name bytes at the offset where those entries end, which is where the
entry of the next file, or the footer, starts; with `L.length` rounds of fuel
the loop ends, so it stops at the footer. -/
theorem extraction_round_trip (env : Env) (archive_name : List Nat) (old : Option (List Nat))
    (L : List (List Nat)) (heap : List Nat) (disk : Disk)
    (hw : env.fopen_w archive_name = true) (hL : ∀ f ∈ L, extractable env f) :
    ∃ A, create_archive env archive_name old L = some (0, some A) ∧
      (∀ fuel, L.length ≤ fuel → ∃ disk1,
        extract_files_from_archive env fuel heap (some A) disk = some (0, disk1) ∧
        (∀ f ∈ L, disk1 f = env.fopen_r f) ∧ (∀ p, p ∉ L → disk1 p = disk p)) ∧
      (∀ pre post, L = pre ++ post → ∃ es1 es2 B disk1,
        entries env pre = some es1 ∧ entries env post = some es2 ∧
        A = es1.flatten ++ (es2.flatten ++ zeros 1024) ∧
        (∀ f ∈ pre, disk1 f = env.fopen_r f) ∧
        ∀ fuel, extract_files_from_archive env (fuel + pre.length) heap (some A) disk =
          extract_loop env A fuel (fread B 100 A es1.flatten.length).1
            (fread B 100 A es1.flatten.length).2 disk1) := by
  obtain ⟨es, hes⟩ := entries_extractable L hL
  have hopen : ∀ M : List (List Nat), (∀ f ∈ M, f ∈ L) →
      ∀ f ∈ M, ∃ src, env.fopen_r f = some src := by
    intro M hM f hf
    obtain ⟨-, -, -, -, src, -, -, hsrc, -⟩ := hL f (hM f hf)
    exact ⟨src, hsrc⟩
  have hbuf : 512 ≤ (store (zeros 512) heap).length := by
    rw [store_length, zeros_length]
  refine ⟨es.flatten ++ zeros 1024, create_archive_of_entries old hw hes, ?_, ?_⟩
  · intro fuel hfuel
    obtain ⟨k, hk⟩ : ∃ k, fuel = k + L.length := ⟨fuel - L.length, by omega⟩
    subst hk
    obtain ⟨B, -, hrun⟩ := extract_loop_entries env (es.flatten ++ zeros 1024) (zeros 1024) L es 0
      (store (zeros 512) heap) hes hL (List.drop_zero _) hbuf
    have hfoot : (es.flatten ++ zeros 1024).drop (0 + es.flatten.length) = zeros 1024 := by
      rw [Nat.zero_add]
      exact List.drop_left' rfl
    obtain ⟨b, hb⟩ := fread_footer (es.flatten ++ zeros 1024) B (0 + es.flatten.length) hfoot
    refine ⟨extracted env disk L, ?_, extracted_mem env L disk (hopen L (fun _ h => h)),
      fun p hp => extracted_other env L disk p hp⟩
    unfold extract_files_from_archive
    dsimp only
    rw [hrun k disk, hb]
    exact extract_loop_footer env _ k b _ _
  · intro pre post hsplit
    subst hsplit
    obtain ⟨es1, es2, h1, h2, rfl⟩ := entries_append env pre post es hes
    have hAeq : (es1 ++ es2).flatten ++ zeros 1024 =
        es1.flatten ++ (es2.flatten ++ zeros 1024) := by
      rw [List.flatten_append, List.append_assoc]
    rw [hAeq]
    have hA : (es1.flatten ++ (es2.flatten ++ zeros 1024)).drop 0 =
        es1.flatten ++ (es2.flatten ++ zeros 1024) := List.drop_zero _
    obtain ⟨B, -, hrun⟩ := extract_loop_entries env (es1.flatten ++ (es2.flatten ++ zeros 1024))
      (es2.flatten ++ zeros 1024) pre es1 0 (store (zeros 512) heap) h1
      (fun f hf => hL f (List.mem_append_left post hf)) hA hbuf
    refine ⟨es1, es2, B, extracted env disk pre, h1, h2, rfl,
      extracted_mem env pre disk (hopen pre (fun f hf => List.mem_append_left post hf)), ?_⟩
    intro fuel
    have h := hrun fuel disk
    rw [Nat.zero_add] at h
    unfold extract_files_from_archive
    dsimp only
    exact h

/-- C19, at a concrete input: the files `a` (empty) and `b` (two bytes) of
`demo_env`, extracted to an empty disk. -/
theorem extraction_round_trip_witness :
    ∃ A, create_archive demo_env demo_name none [[97], [98]] = some (0, some A) ∧
      (∀ fuel, [[97], [98]].length ≤ fuel → ∃ disk1,
        extract_files_from_archive demo_env fuel [] (some A) empty_disk = some (0, disk1) ∧
        (∀ f ∈ [[97], [98]], disk1 f = demo_env.fopen_r f) ∧
        (∀ p, p ∉ [[97], [98]] → disk1 p = empty_disk p)) ∧
      (∀ pre post, [[97], [98]] = pre ++ post → ∃ es1 es2 B disk1,
        entries demo_env pre = some es1 ∧ entries demo_env post = some es2 ∧
        A = es1.flatten ++ (es2.flatten ++ zeros 1024) ∧
        (∀ f ∈ pre, disk1 f = demo_env.fopen_r f) ∧
        ∀ fuel, extract_files_from_archive demo_env (fuel + pre.length) [] (some A) empty_disk =
          extract_loop demo_env A fuel (fread B 100 A es1.flatten.length).1
            (fread B 100 A es1.flatten.length).2 disk1) :=
  extraction_round_trip demo_env demo_name none [[97], [98]] [] empty_disk (by decide!)
    (by
      intro f hf
      simp only [List.mem_cons, List.mem_singleton, List.not_mem_nil, or_false] at hf
      rcases hf with rfl | rfl
      · exact ⟨by decide, by decide, by decide, by decide!, [], demo_stat 0 1000,
          demo_created_header, by decide!, by decide!, by decide!, by decide!, by decide!⟩
      · exact ⟨by decide, by decide, by decide, by decide!, [104, 105], demo_stat 2 1000,
          demo_b_header, by decide!, by decide!, by decide!, by decide!, by decide!⟩)

/-- A call of `create_archive` that returns 0 has closed the stream: the
file at the moment of the return is the archive as written. -/
theorem create_archive_at_return_of_closed {env : Env} {archive_name : List Nat}
    {old : Option (List Nat)} {files : List (List Nat)} {A : Option (List Nat)}
    (h : create_archive env archive_name old files = some (0, A)) :
    create_archive_at_return env archive_name old files = some (0, A) := by
  unfold create_archive at h
  unfold create_archive_at_return
  cases hw : env.fopen_w archive_name with
  | false =>
    rw [hw] at h
    simp at h
  | true =>
    rw [hw] at h
    simp only [Bool.not_true, Bool.false_eq_true, if_false] at h ⊢
    cases hl : write_loop env files [] with
    | none =>
      rw [hl] at h
      cases h
    | some p =>
      obtain ⟨o, archive⟩ := p
      rw [hl] at h
      cases o with
      | none => exact h
      | some r =>
        have hr := write_loop_ret hl
        subst hr
        simp at h

/-- A call of `append_files_to_archive` that returns 0 has closed the stream:
the file at the moment of the return is the archive as written. -/
theorem append_at_return_of_closed {env : Env} {archive_name : List Nat}
    {old : Option (List Nat)} {files : List (List Nat)} {A : Option (List Nat)}
    (h : append_files_to_archive env archive_name old files = some (0, A)) :
    append_files_to_archive_at_return env archive_name old files = some (0, A) := by
  unfold append_files_to_archive at h
  unfold append_files_to_archive_at_return
  cases old with
  | none => simp at h
  | some file =>
    dsimp only at h ⊢
    by_cases h1 : (remove_trailing_bytes env archive_name file 1024).1 = 1
    · rw [if_pos h1] at h
      simp at h
    · rw [if_neg h1] at h ⊢
      cases hw : env.fopen_w archive_name with
      | false =>
        rw [hw] at h
        simp at h
      | true =>
        rw [hw] at h
        simp only [Bool.not_true, Bool.false_eq_true, if_false] at h ⊢
        cases hl : write_loop env files (remove_trailing_bytes env archive_name file 1024).2 with
        | none =>
          rw [hl] at h
          cases h
        | some p =>
          obtain ⟨o, archive⟩ := p
          rw [hl] at h
          cases o with
          | none => exact h
          | some r =>
            have hr := write_loop_ret hl
            subst hr
            simp at h

theorem scan_state_succ_of_lt {archive : List Nat} {size : Int} {n : Nat}
    (h : ((scan_state archive size n).1 : Int) < size) :
    scan_state archive size (n + 1) =
      ((list_round archive (scan_state archive size n).1 (scan_state archive size n).2).1,
        (list_round archive (scan_state archive size n).1 (scan_state archive size n).2).2.1) := by
  rw [scan_state, if_pos h]

theorem scan_state_succ_of_ge {archive : List Nat} {size : Int} {n : Nat}
    (h : ¬ ((scan_state archive size n).1 : Int) < size) :
    scan_state archive size (n + 1) = scan_state archive size n := by
  rw [scan_state, if_neg h]

/-- The scan loop after `n` rounds is in the state `scan_state` gives, having
added at most `n` names. -/
theorem list_loop_scan_state (archive : List Nat) (size : Int) :
    ∀ n : Nat, ∃ names : List (List Nat), names.length ≤ n ∧
      ∀ (fuel : Nat) (files : List (List Nat)),
        list_loop archive size (fuel + n) 0 0 files =
          list_loop archive size fuel (scan_state archive size n).1
            (scan_state archive size n).2 (files ++ names) := by
  intro n
  induction n with
  | zero =>
    refine ⟨[], le_refl _, ?_⟩
    intro fuel files
    rw [List.append_nil]
    rfl
  | succ n ih =>
    obtain ⟨names, hlen, hrun⟩ := ih
    by_cases h : ((scan_state archive size n).1 : Int) < size
    · refine ⟨names ++ [(list_round archive (scan_state archive size n).1
        (scan_state archive size n).2).2.2], ?_, ?_⟩
      · rw [List.length_append, List.length_singleton]
        omega
      · intro fuel files
        have e : fuel + (n + 1) = (fuel + 1) + n := by omega
        rw [e, hrun (fuel + 1) files, list_loop_round _ _ _ _ _ _ h, scan_state_succ_of_lt h]
        unfold file_list_add
        rw [List.append_assoc]
    · refine ⟨names, by omega, ?_⟩
      intro fuel files
      have e : fuel + (n + 1) = (fuel + 1) + n := by omega
      rw [e, hrun (fuel + 1) files, scan_state_succ_of_ge h, list_loop_done _ _ _ _ _ _ h,
        list_loop_done _ _ _ _ _ _ h]

/-- Where the size fields the scan meets are good, the position of the
stream and the variable `i` agree after every round. -/
theorem scan_state_agree (archive : List Nat) (size : Int)
    (hsz : ∀ n : Nat, ((scan_state archive size n).1 : Int) < size →
      0 ≤ size_at archive (scan_state archive size n).1 ∧
        ((scan_state archive size n).1 : Int) +
          (size_at archive (scan_state archive size n).1 / 512 + 2) * 512 < 2147483648) :
    ∀ n : Nat, ((scan_state archive size n).1 : Int) = (scan_state archive size n).2 := by
  intro n
  induction n with
  | zero => rfl
  | succ n ih =>
    by_cases h : ((scan_state archive size n).1 : Int) < size
    · obtain ⟨hs, hb⟩ := hsz n h
      have h0 : 0 ≤ size_at archive (scan_state archive size n).1 / 512 :=
        Int.ediv_nonneg hs (by norm_num)
      rw [scan_state_succ_of_lt h, ← ih, list_round_eq archive _ hs hb]
      dsimp only
      exact Int.toNat_of_nonneg (by omega)
    · rw [scan_state_succ_of_ge h]
      exact ih

/-- What a round of the scan loop does from a state the scan reaches with a
good size field. -/
theorem scan_state_round (archive : List Nat) (size : Int)
    (hsz : ∀ n : Nat, ((scan_state archive size n).1 : Int) < size →
      0 ≤ size_at archive (scan_state archive size n).1 ∧
        ((scan_state archive size n).1 : Int) +
          (size_at archive (scan_state archive size n).1 / 512 + 2) * 512 < 2147483648)
    (n : Nat) (h : ((scan_state archive size n).1 : Int) < size) :
    ((scan_state archive size (n + 1)).1 : Int) =
        ((scan_state archive size n).1 : Int) +
          (size_at archive (scan_state archive size n).1 / 512 + 2) * 512 ∧
      (scan_state archive size n).1 + 1024 ≤ (scan_state archive size (n + 1)).1 := by
  obtain ⟨hs, hb⟩ := hsz n h
  have h0 : 0 ≤ size_at archive (scan_state archive size n).1 / 512 :=
    Int.ediv_nonneg hs (by norm_num)
  have hag := scan_state_agree archive size hsz n
  have hnat : ((((scan_state archive size n).1 : Int) +
      (size_at archive (scan_state archive size n).1 / 512 + 2) * 512).toNat : Int) =
        ((scan_state archive size n).1 : Int) +
          (size_at archive (scan_state archive size n).1 / 512 + 2) * 512 :=
    Int.toNat_of_nonneg (by omega)
  rw [scan_state_succ_of_lt h, ← hag, list_round_eq archive _ hs hb]
  dsimp only
  refine ⟨hnat, ?_⟩
  omega

/-- The scan loop ends, from every state the scan reaches, where the size
fields it meets are good. -/
theorem list_loop_from_state (archive : List Nat) (size : Int)
    (hsz : ∀ n : Nat, ((scan_state archive size n).1 : Int) < size →
      0 ≤ size_at archive (scan_state archive size n).1 ∧
        ((scan_state archive size n).1 : Int) +
          (size_at archive (scan_state archive size n).1 / 512 + 2) * 512 < 2147483648) :
    ∀ (fuel n : Nat) (files : List (List Nat)),
      size - ((scan_state archive size n).1 : Int) ≤ 1024 * (fuel : Int) →
      ∃ names, list_loop archive size fuel (scan_state archive size n).1
          (scan_state archive size n).2 files = some (0, files ++ names) ∧
        (names.length : Int) * 1024 ≤
          max 0 (size - ((scan_state archive size n).1 : Int) + 1023) := by
  intro fuel
  induction fuel with
  | zero =>
    intro n files hf
    refine ⟨[], ?_, ?_⟩
    · rw [list_loop_done _ _ _ _ _ _ (by omega), List.append_nil]
    · simp
  | succ fuel ih =>
    intro n files hf
    by_cases hlt : ((scan_state archive size n).1 : Int) < size
    · obtain ⟨hstep, hfar⟩ := scan_state_round archive size hsz n hlt
      obtain ⟨names, hnames, hbound⟩ := ih (n + 1)
        (file_list_add files (list_round archive (scan_state archive size n).1
          (scan_state archive size n).2).2.2) (by push_cast at hf; omega)
      rw [scan_state_succ_of_lt hlt] at hnames
      dsimp only at hnames
      refine ⟨(list_round archive (scan_state archive size n).1
        (scan_state archive size n).2).2.2 :: names, ?_, ?_⟩
      · rw [list_loop_round _ _ _ _ _ _ hlt, hnames]
        unfold file_list_add
        rw [List.append_assoc, List.singleton_append]
      · rw [List.length_cons]
        push_cast
        have hm := le_max_left 0 (size - ((scan_state archive size (n + 1)).1 : Int) + 1023)
        have hm2 := le_max_right 0 (size - ((scan_state archive size n).1 : Int) + 1023)
        rcases max_cases 0 (size - ((scan_state archive size (n + 1)).1 : Int) + 1023) with
          ⟨he, _⟩ | ⟨he, _⟩
        · rw [he] at hbound
          omega
        · rw [he] at hbound
          omega
    · refine ⟨[], ?_, ?_⟩
      · rw [list_loop_done _ _ _ _ _ _ hlt, List.append_nil]
      · simp

/-- C16, as amended. Listing is finite where nothing overflows: for an
archive whose content length `size = length - 1024` is below 2^31 and in
which every size field the scan meets (the one at the position of the stream
at the start of each round that is run, `scan_state`) decodes to some
`s ≥ 0` with `position + (s / 512 + 2) * 512 < 2^31`: the position and the
variable `i` agree at every round, each round that is run moves them forward
by `(s / 512 + 2) * 512`, at least 1024, and `get_archive_file_list`
returns, with enough fuel, success and at most `ceil((length - 1024) / 1024)`
names more; for a length that is a multiple of 512 these are at most
`(length - 1024) / 512`. The state `scan_state` gives is the one the loop is
in after `n` rounds, whatever the archive. -/
theorem listing_terminates (archive : List Nat) (files : List (List Nat)) (size : Int)
    (hsize : size = (archive.length : Int) - 1024) (hlen : size < 2147483648)
    (hsz : ∀ n : Nat, ((scan_state archive size n).1 : Int) < size →
      0 ≤ size_at archive (scan_state archive size n).1 ∧
        ((scan_state archive size n).1 : Int) +
          (size_at archive (scan_state archive size n).1 / 512 + 2) * 512 < 2147483648) :
    (∀ n : Nat, ∃ names : List (List Nat), names.length ≤ n ∧
      ∀ (fuel : Nat) (fs : List (List Nat)),
        list_loop archive size (fuel + n) 0 0 fs =
          list_loop archive size fuel (scan_state archive size n).1
            (scan_state archive size n).2 (fs ++ names)) ∧
    (∀ n : Nat, ((scan_state archive size n).1 : Int) = (scan_state archive size n).2) ∧
    (∀ n : Nat, ((scan_state archive size n).1 : Int) < size →
      ((scan_state archive size (n + 1)).1 : Int) =
        ((scan_state archive size n).1 : Int) +
          (size_at archive (scan_state archive size n).1 / 512 + 2) * 512 ∧
      (scan_state archive size n).1 + 1024 ≤ (scan_state archive size (n + 1)).1) ∧
    ∀ fuel : Nat, archive.length / 1024 ≤ fuel →
      ∃ names, get_archive_file_list fuel (some archive) files = some (0, files ++ names) ∧
        names.length ≤ (archive.length - 1024 + 1023) / 1024 ∧
        (archive.length % 512 = 0 → names.length ≤ (archive.length - 1024) / 512) := by
  refine ⟨list_loop_scan_state archive size, scan_state_agree archive size hsz,
    scan_state_round archive size hsz, ?_⟩
  intro fuel hfuel
  have hw : wrap32 ((archive.length : Int) - 1024) = size := by
    rw [← hsize]
    exact wrap32_of_range (by omega) hlen
  unfold get_archive_file_list
  dsimp only
  rw [hw]
  obtain ⟨names, hnames, hbound⟩ := list_loop_from_state archive size hsz fuel 0 files
    (by
      have e : ((scan_state archive size 0).1 : Int) = 0 := rfl
      rw [e]
      omega)
  have e0 : scan_state archive size 0 = (0, 0) := rfl
  rw [e0] at hnames hbound
  refine ⟨names, hnames, ?_, ?_⟩
  · push_cast at hbound
    rcases max_cases 0 (size - 0 + 1023) with ⟨he, _⟩ | ⟨he, _⟩
    · rw [he] at hbound
      omega
    · rw [he] at hbound
      omega
  · intro hmod
    push_cast at hbound
    rcases max_cases 0 (size - 0 + 1023) with ⟨he, _⟩ | ⟨he, _⟩
    · rw [he] at hbound
      omega
    · rw [he] at hbound
      omega

theorem scan_state_odd_archive : ∀ n : Nat, scan_state odd_archive 1024 (n + 1) = (1536, 1536) := by
  intro n
  induction n with
  | zero => decide!
  | succ n ih =>
    have h : ¬ ((scan_state odd_archive 1024 (n + 1)).1 : Int) < 1024 := by
      rw [ih]
      decide
    rw [scan_state_succ_of_ge h, ih]

/-- C16, at a concrete input: the archive `create_archive` writes for the
file `l` of `odd_env`, of 512 bytes. The scan meets the size field of the
header only; the bytes of the data block at offset 512 that lie where a
header has its size field decode to -1024, and the scan never reads them. -/
theorem listing_terminates_witness :
    size_at odd_archive 512 = -1024 ∧
    ((∀ n : Nat, ∃ names : List (List Nat), names.length ≤ n ∧
      ∀ (fuel : Nat) (fs : List (List Nat)),
        list_loop odd_archive 1024 (fuel + n) 0 0 fs =
          list_loop odd_archive 1024 fuel (scan_state odd_archive 1024 n).1
            (scan_state odd_archive 1024 n).2 (fs ++ names)) ∧
    (∀ n : Nat, ((scan_state odd_archive 1024 n).1 : Int) = (scan_state odd_archive 1024 n).2) ∧
    (∀ n : Nat, ((scan_state odd_archive 1024 n).1 : Int) < 1024 →
      ((scan_state odd_archive 1024 (n + 1)).1 : Int) =
        ((scan_state odd_archive 1024 n).1 : Int) +
          (size_at odd_archive (scan_state odd_archive 1024 n).1 / 512 + 2) * 512 ∧
      (scan_state odd_archive 1024 n).1 + 1024 ≤ (scan_state odd_archive 1024 (n + 1)).1) ∧
    ∀ fuel : Nat, odd_archive.length / 1024 ≤ fuel →
      ∃ names, get_archive_file_list fuel (some odd_archive) [] = some (0, [] ++ names) ∧
        names.length ≤ (odd_archive.length - 1024 + 1023) / 1024 ∧
        (odd_archive.length % 512 = 0 → names.length ≤ (odd_archive.length - 1024) / 512)) :=
  ⟨by decide!, listing_terminates odd_archive [] 1024 (by decide!) (by decide)
    (by
      intro n hlt
      cases n with
      | zero => decide!
      | succ n =>
        rw [scan_state_odd_archive n] at hlt
        exact absurd hlt (by decide))⟩

end Minitar
